import Mathlib

/-!
Verification development for the graph-vulcan-assets repository: a shallow
embedding in Lean 4 of the stream-delivery layer (`stream/kafka`), the event
decoding layer (`vulcan`) and the reconciliation engine
(`cmd/graph-vulcan-assets/main.go`), together with theorems settling the
specification claims about them.

Conventions of the embedding:
* Go byte slices that are only ever converted to strings are modelled as
  `String`; `nil` slices/pointers become `Option`.
* `time.Time` values are modelled as `Int` instants; the zero `time.Time{}`
  passed as an "absent end time" is modelled as `none : Option Int`.
* Fallible Go functions returning `(T, error)` become `Except String T`.
  `fmt.Errorf` wrapping only prepends context text to the message, which is
  irrelevant to every claim, so errors are propagated unchanged.
* The asset-inventory HTTP client (package `inventory`) is an external
  collaborator whose implementation is not part of the core source; its
  operations are modelled from the spec (section 6, Graph Store Client) as
  pure state transformers over an explicit `Inventory` state.
-/

namespace GraphVulcanAssets

/-! ### Basic data model (package `vulcan`) -/

/-- Time instants (`time.Time`), modelled as integers. -/
abbrev Time := Int

/-- Team represents the "team" model as defined by the Vulcan async API
(`vulcan.Team`). -/
structure VTeam where
  id : String
  name : String
  description : String
  tag : String
deriving Repr, DecidableEq

/-- Annotation entry of an asset payload (`vulcan.Annotation`). -/
structure Annot where
  key : String
  value : String
deriving Repr, DecidableEq

/-- AssetPayload represents the "assetPayload" model (`vulcan.AssetPayload`).
`AssetType` is a string type in the source. -/
structure AssetPayload where
  id : String
  team : VTeam
  aliasName : String
  rolfp : String
  scannable : Bool
  assetType : String
  identifier : String
  annotations : List Annot
deriving Repr, DecidableEq

/-- The zero value of `vulcan.AssetPayload` (all fields at their Go zero
values), used when decoding a tombstone message. -/
def AssetPayload.zero : AssetPayload :=
  { id := "", team := { id := "", name := "", description := "", tag := "" },
    aliasName := "", rolfp := "", scannable := false, assetType := "",
    identifier := "", annotations := [] }

/-- A metadata entry of a stream message (`stream.MetadataEntry`); keys and
values are byte strings, modelled as `String`. -/
structure MetadataEntry where
  key : String
  value : String
deriving Repr, DecidableEq

/-- A message coming from a stream (`stream.Message`); a `nil` value is
`none`. -/
structure Message where
  key : String
  value : Option String
  metadata : List MetadataEntry
deriving Repr, DecidableEq

/-! ### Version gate (`vulcan.supportedVersion`) -/

/-- MajorVersion is the major version of the Vulcan asynchronous API
supported by the client (`vulcan.MajorVersion`). -/
def MajorVersion : Int := 0

/-- Splitting of a character list at every occurrence of the separator
`sep`; mirrors Go `strings.Split` (for a one-character separator) and agrees
with `String.splitOn`. The result is always nonempty. -/
def splitOnSep (sep : Char) : List Char → List (List Char)
  | [] => [[]]
  | c :: rest =>
    match splitOnSep sep rest with
    | [] => [[]]
    | g :: gs => if c = sep then [] :: g :: gs else (c :: g) :: gs

/-- Numeric value of a list of decimal digit characters. -/
def digitsVal (cs : List Char) : Nat :=
  cs.foldl (fun acc c => acc * 10 + (c.toNat - '0'.toNat)) 0

/-- Go `strconv.Atoi`: an optional leading sign followed by at least one
decimal digit. Overflow is not modelled: every claim only compares the
result with 0, and an overflowing input parses here to a value of magnitude
greater than zero while Go reports an error, so the comparison with 0 is
`false` either way. -/
def goAtoi (cs : List Char) : Option Int :=
  match cs with
  | [] => none
  | c :: rest =>
    let (neg, digits) :=
      if c = '-' then (true, rest)
      else if c = '+' then (false, rest)
      else (false, c :: rest)
    match digits with
    | [] => none
    | _ =>
      if digits.all Char.isDigit then
        some (if neg then -(digitsVal digits : Int) else (digitsVal digits : Int))
      else none

/-- supportedVersion takes a semantic version string and returns true if it
is compatible with the client (`vulcan.supportedVersion`): strip an optional
leading 'v', split on '.', require at least three components, and require
the leading component to parse as an integer equal to `MajorVersion`. -/
def supportedVersion (v : String) : Bool :=
  match v.data with
  | [] => false
  | c :: rest =>
    let w := if c = 'v' then rest else c :: rest
    match splitOnSep '.' w with
    | [] => false
    | p :: ps =>
      if ps.length + 1 < 3 then false
      else
        match goAtoi p with
        | none => false
        | some major => major = MajorVersion

/-- Version-compatibility condition exactly as the specification words it
(claim C4): after stripping one optional leading 'v', the version splits on
'.' into at least three numeric dot-separated components and the leading
(major) component equals the supported major version. "Numeric" is read as
consisting of decimal digits. -/
def specSupportedVersion (v : String) : Bool :=
  match v.data with
  | [] => false
  | c :: rest =>
    let w := if c = 'v' then rest else c :: rest
    let parts := splitOnSep '.' w
    decide (3 ≤ parts.length) &&
      parts.all (fun p => !p.isEmpty && p.all Char.isDigit) &&
      match parts with
      | [] => false
      | p :: _ => goAtoi p = some MajorVersion

/-! ### Metadata and message-ID parsing (`vulcan.parseMetadata`,
`vulcan.parseMessageID`) -/

/-- parseMetadata parses and validates message metadata
(`vulcan.parseMetadata`): the last entry wins for each of the three keys,
and all three must be nonempty. -/
def parseMetadata (msg : Message) : Except String (String × String × String) :=
  let r := msg.metadata.foldl
    (fun (acc : String × String × String) e =>
      if e.key = "version" then (e.value, acc.2.1, acc.2.2)
      else if e.key = "type" then (acc.1, e.value, acc.2.2)
      else if e.key = "identifier" then (acc.1, acc.2.1, e.value)
      else acc)
    ("", "", "")
  if r.1 = "" ∨ r.2.1 = "" ∨ r.2.2 = "" then .error "missing metadata entry"
  else .ok r

/-- parseMessageID parses an asset message ID and returns the corresponding
team ID and asset ID (`vulcan.parseMessageID`): the ID must split on '/'
into exactly two parts. -/
def parseMessageID (id : String) : Except String (String × String) :=
  match splitOnSep '/' id.data with
  | [teamID, assetID] => .ok (String.mk teamID, String.mk assetID)
  | _ => .error "invalid message ID"

/-! ### Per-message handler of `vulcan.Client.ProcessAssets` -/

/-- Errors produced by the per-message closure of
`vulcan.Client.ProcessAssets`. `unsupportedVersion` is
`vulcan.ErrUnsupportedVersion`; `handler` wraps an error returned by the
user-supplied asset handler. -/
inductive VulcanErr (E : Type) where
  | invalidMetadata (msg : String)
  | unsupportedVersion
  | unmarshal (msg : String)
  | invalidMessageID (msg : String)
  | handler (e : E)
deriving Repr, DecidableEq

/-- The per-message closure that `vulcan.Client.ProcessAssets` passes to the
stream processor. `unmarshal` abstracts `json.Unmarshal` of the message
value into an asset payload (external `encoding/json` collaborator);
`h` is the user-supplied asset handler. -/
def processAssetsHandler {E : Type} (unmarshal : String → Except String AssetPayload)
    (h : AssetPayload → Bool → Except E Unit) (msg : Message) :
    Except (VulcanErr E) Unit :=
  match parseMetadata msg with
  | .error e => .error (.invalidMetadata e)
  | .ok (version, typ, identifier) =>
    if !supportedVersion version then .error .unsupportedVersion
    else
      match msg.value with
      | some raw =>
        match unmarshal raw with
        | .error e => .error (.unmarshal e)
        | .ok payload =>
          match h payload false with
          | .error e => .error (.handler e)
          | .ok _ => .ok ()
      | none =>
        match parseMessageID msg.key with
        | .error e => .error (.invalidMessageID e)
        | .ok (teamID, assetID) =>
          let payload := { AssetPayload.zero with
            id := assetID, assetType := typ, identifier := identifier,
            team := { AssetPayload.zero.team with id := teamID } }
          match h payload true with
          | .error e => .error (.handler e)
          | .ok _ => .ok ()

/-! ### Graph store state (asset-inventory collaborator)

Modelled from the spec: package `inventory` is the Graph Store Client, an
external collaborator specified only by interface (spec section 6). Its
state is the lists of assets, teams, Owns edges and ParentOf edges; each
entity kind supports list/filter, create, update-by-ID and, for edges, an
upsert-by-composite-key operation. -/

/-- An asset as stored by the inventory (`inventory.AssetResp`). -/
structure AssetResp where
  id : Nat
  typ : String
  identifier : String
  firstSeen : Time
  lastSeen : Time
  expiration : Time
deriving Repr, DecidableEq

/-- A team as stored by the inventory (`inventory.TeamResp`). -/
structure TeamResp where
  id : Nat
  identifier : String
  name : String
deriving Repr, DecidableEq

/-- An Owns edge (`inventory.OwnsResp`); `endTime = none` means the
ownership is active. -/
structure OwnsResp where
  assetID : Nat
  teamID : Nat
  startTime : Time
  endTime : Option Time
deriving Repr, DecidableEq

/-- A ParentOf edge (`inventory.ParentOfResp`) from a child asset to a
parent asset. -/
structure ParentOfResp where
  childID : Nat
  parentID : Nat
  firstSeen : Time
  lastSeen : Time
  expiration : Time
deriving Repr, DecidableEq

/-- The whole state held by the graph store; `nextID` generates fresh
internal IDs. -/
structure Inventory where
  nextID : Nat
  assets : List AssetResp
  teams : List TeamResp
  owns : List OwnsResp
  parentOf : List ParentOfResp
deriving Repr, DecidableEq

/-- Modelled from the spec: `inventory.Unexpired`, the sentinel "unexpired"
timestamp, a fixed instant far enough in the future to compare as later
than any real expiration the engine ever writes. -/
def Unexpired : Time := 253402300799

/-- Upsert-by-key into a list: if some element has key `k`, apply the
update function `u` to every such element; otherwise append the freshly
created element `v`. This is the upsert-by-composite-key operation of the
Graph Store Client (spec section 6); the store's unique keys mean at most
one element ever matches. -/
def upsertBy {α κ : Type} [DecidableEq κ] (key : α → κ) (k : κ) (u : α → α)
    (v : α) (l : List α) : List α :=
  if l.any (fun x => key x = k) then
    l.map (fun x => if key x = k then u x else x)
  else l ++ [v]

/-- Modelled from the spec: `inventory.Client.Assets`, list assets filtered
by exact type and identifier. -/
def Inventory.assetsQ (s : Inventory) (typ identifier : String) : List AssetResp :=
  s.assets.filter (fun a => a.typ = typ ∧ a.identifier = identifier)

/-- Modelled from the spec: `inventory.Client.CreateAsset`; first-seen and
last-seen are both the given timestamp, the internal ID is store-assigned. -/
def Inventory.createAsset (s : Inventory) (typ identifier : String)
    (timestamp expiration : Time) : AssetResp × Inventory :=
  let a : AssetResp :=
    { id := s.nextID, typ := typ, identifier := identifier,
      firstSeen := timestamp, lastSeen := timestamp, expiration := expiration }
  (a, { s with nextID := s.nextID + 1, assets := s.assets ++ [a] })

/-- Modelled from the spec: `inventory.Client.UpdateAsset`, update-by-ID;
fails with NotFound if the ID is unknown; first-seen is preserved. -/
def Inventory.updateAsset (s : Inventory) (id : Nat) (typ identifier : String)
    (timestamp expiration : Time) : Except String (AssetResp × Inventory) :=
  match s.assets.find? (fun a => a.id = id) with
  | none => .error "NotFound"
  | some a =>
    let a' :=
      { a with
        typ := typ, identifier := identifier,
        lastSeen := timestamp, expiration := expiration }
    let assets' := s.assets.map fun b =>
      if b.id = id then
        { b with
          typ := typ, identifier := identifier,
          lastSeen := timestamp, expiration := expiration }
      else b
    .ok (a', { s with assets := assets' })

/-- Modelled from the spec: `inventory.Client.Teams`, list teams filtered by
identifier. -/
def Inventory.teamsQ (s : Inventory) (identifier : String) : List TeamResp :=
  s.teams.filter (fun t => t.identifier = identifier)

/-- Modelled from the spec: `inventory.Client.CreateTeam`. -/
def Inventory.createTeam (s : Inventory) (identifier name : String) :
    TeamResp × Inventory :=
  let t : TeamResp := { id := s.nextID, identifier := identifier, name := name }
  (t, { s with nextID := s.nextID + 1, teams := s.teams ++ [t] })

/-- Modelled from the spec: `inventory.Client.UpdateTeam`, update-by-ID. -/
def Inventory.updateTeam (s : Inventory) (id : Nat) (identifier name : String) :
    Except String (TeamResp × Inventory) :=
  match s.teams.find? (fun t => t.id = id) with
  | none => .error "NotFound"
  | some t =>
    let t' := { t with identifier := identifier, name := name }
    let teams' := s.teams.map fun u =>
      if u.id = id then { u with identifier := identifier, name := name } else u
    .ok (t', { s with teams := teams' })

/-- The composite key of an Owns edge: (asset, team). -/
def ownsKey (o : OwnsResp) : Nat × Nat := (o.assetID, o.teamID)

/-- The composite key of a ParentOf edge: (child, parent). -/
def parentKey (e : ParentOfResp) : Nat × Nat := (e.childID, e.parentID)

/-- Modelled from the spec: `inventory.Client.Owners`, list the Owns edges
of an asset. -/
def Inventory.owners (s : Inventory) (assetID : Nat) : List OwnsResp :=
  s.owns.filter (fun o => o.assetID = assetID)

/-- Modelled from the spec: `inventory.Client.UpsertOwner`,
upsert-by-composite-key on (asset, team); an existing edge gets its start
and end times replaced, a missing edge is created. -/
def Inventory.upsertOwner (s : Inventory) (assetID teamID : Nat)
    (startTime : Time) (endTime : Option Time) : OwnsResp × Inventory :=
  let owns' := upsertBy ownsKey (assetID, teamID)
    (fun o => { o with startTime := startTime, endTime := endTime })
    ⟨assetID, teamID, startTime, endTime⟩ s.owns
  (⟨assetID, teamID, startTime, endTime⟩, { s with owns := owns' })

/-- Modelled from the spec: `inventory.Client.Parents`, list the ParentOf
edges in which the asset is the child. -/
def Inventory.parentsQ (s : Inventory) (assetID : Nat) : List ParentOfResp :=
  s.parentOf.filter (fun p => p.childID = assetID)

/-- Modelled from the spec: `inventory.Client.Children`, list the ParentOf
edges in which the asset is the parent. -/
def Inventory.childrenQ (s : Inventory) (assetID : Nat) : List ParentOfResp :=
  s.parentOf.filter (fun p => p.parentID = assetID)

/-- Modelled from the spec: `inventory.Client.UpsertParent`,
upsert-by-composite-key on (child, parent); an existing edge keeps its
first-seen and gets last-seen and expiration replaced, a missing edge is
created with first-seen = last-seen = timestamp. -/
def Inventory.upsertParent (s : Inventory) (childID parentID : Nat)
    (timestamp expiration : Time) : ParentOfResp × Inventory :=
  let parentOf' := upsertBy parentKey (childID, parentID)
    (fun p => { p with lastSeen := timestamp, expiration := expiration })
    ⟨childID, parentID, timestamp, timestamp, expiration⟩ s.parentOf
  (⟨childID, parentID, timestamp, timestamp, expiration⟩, { s with parentOf := parentOf' })

/-! ### Reconciliation engine (`cmd/graph-vulcan-assets/main.go`)

`time.Now()` is passed explicitly as the parameter `now`; each engine entry
point (`refreshAsset`, `expireAsset`) reads the clock once in the source, so
a single instant per event is faithful. -/

/-- upsertAsset creates an asset if it does not exist; if it exists, it
updates its time attributes; more than one match is the fatal "duplicated
asset" error (`main.upsertAsset`). -/
def upsertAsset (s : Inventory) (payload : AssetPayload) (now : Time) :
    Except String (AssetResp × Inventory) :=
  match s.assetsQ payload.assetType payload.identifier with
  | [a] => s.updateAsset a.id payload.assetType payload.identifier now Unexpired
  | [] => .ok (s.createAsset payload.assetType payload.identifier now Unexpired)
  | _ => .error "duplicated asset"

/-- upsertTeam creates a team if it does not exist; if it exists, it updates
its name; more than one match is the fatal "duplicated team" error
(`main.upsertTeam`). -/
def upsertTeam (s : Inventory) (payload : AssetPayload) :
    Except String (TeamResp × Inventory) :=
  match s.teamsQ payload.team.id with
  | [t] => s.updateTeam t.id payload.team.id payload.team.name
  | [] => .ok (s.createTeam payload.team.id payload.team.name)
  | _ => .error "duplicated team"

/-- setOwner sets the owner of an asset; if the owns relation already exists
its original start time is reused, and the upsert always carries an absent
end time (`main.setOwner`; the Go call passes `time.Time{}` as end time). -/
def setOwner (s : Inventory) (asset : AssetResp) (team : TeamResp) (now : Time) :
    Inventory :=
  let ownersList := s.owners asset.id
  let startTime :=
    match ownersList.find? (fun o => o.teamID = team.id) with
    | some o => o.startTime
    | none => now
  (s.upsertOwner asset.id team.id startTime none).2

/-- The anchored regular expression `^[0-9]{12}$` of `main.go`
(`shortAWSAccountRe`): exactly twelve decimal digits. -/
def shortAWSAccountMatch (cs : List Char) : Bool :=
  cs.length = 12 && cs.all Char.isDigit

/-- The anchored regular expression `^arn:aws:iam::[0-9]{12}:root$` of
`main.go` (`longAWSAccountRe`): the literal prefix (13 characters), twelve
decimal digits, the literal suffix (5 characters). -/
def longAWSAccountMatch (cs : List Char) : Bool :=
  cs.length = 30 && cs.take 13 = "arn:aws:iam::".data &&
    ((cs.drop 13).take 12).all Char.isDigit && cs.drop 25 = ":root".data

/-- normalizeAWSAccountID normalizes the provided AWS account ID so that it
always follows the long format (`main.normalizeAWSAccountID`). -/
def normalizeAWSAccountID (id : String) : Except String String :=
  if longAWSAccountMatch id.data then .ok id
  else if shortAWSAccountMatch id.data then .ok ("arn:aws:iam::" ++ id ++ ":root")
  else .error ("invalid AWS account id format: " ++ id)

/-- setAWSAccount sets the parent AWS account of an asset: normalize the
account ID, upsert a synthetic asset of type "AWSAccount" with the
normalized identifier, and upsert a ParentOf edge from the asset to it
(`main.setAWSAccount`). -/
def setAWSAccount (s : Inventory) (asset : AssetResp) (awsAccount : String)
    (now : Time) : Except String Inventory :=
  match normalizeAWSAccountID awsAccount with
  | .error e => .error e
  | .ok normAWSAccount =>
    let payload := { AssetPayload.zero with
      identifier := normAWSAccount, assetType := "AWSAccount" }
    match upsertAsset s payload now with
    | .error e => .error e
    | .ok (assetAWSAccount, s1) =>
      .ok (s1.upsertParent asset.id assetAWSAccount.id now Unexpired).2

/-- The annotation loop of `main.refreshAsset`: annotations whose key is not
the configured cloud-account annotation key are skipped; the first error
aborts. -/
def processAnnots (awsKey : String) (asset : AssetResp) (now : Time) :
    List Annot → Inventory → Except String Inventory
  | [], s => .ok s
  | a :: rest, s =>
    if a.key = awsKey then
      match setAWSAccount s asset a.value now with
      | .error e => .error e
      | .ok s' => processAnnots awsKey asset now rest s'
    else processAnnots awsKey asset now rest s

/-- refreshAsset is called when an asset is created or updated: it refreshes
the asset's time attributes and its owns and parent-of relations
(`main.refreshAsset`); `awsKey` is `cfg.AWSAccountAnnotationKey`. -/
def refreshAsset (s : Inventory) (payload : AssetPayload) (now : Time)
    (awsKey : String) : Except String Inventory :=
  match upsertAsset s payload now with
  | .error e => .error e
  | .ok (asset, s1) =>
    match upsertTeam s1 payload with
    | .error e => .error e
    | .ok (team, s2) =>
      processAnnots awsKey asset now payload.annotations (setOwner s2 asset team now)

/-- One iteration of the two cascade-expiry loops of `main.expireAsset`:
an edge whose expiration is at or before `now` is skipped, any other edge
is upserted with last-seen and expiration set to `now`. -/
def expireParentStep (now : Time) (st : Inventory) (e : ParentOfResp) : Inventory :=
  if e.expiration ≤ now then st
  else (st.upsertParent e.childID e.parentID now now).2

/-- expireAsset expires the owns relation of the given team, and, if no
other owns relation stays active, the asset itself together with all its
not-yet-expired parent-of relations, ingoing and outgoing
(`main.expireAsset`). -/
def expireAsset (s : Inventory) (payload : AssetPayload) (now : Time) :
    Except String Inventory :=
  match s.assetsQ payload.assetType payload.identifier with
  | [] => .ok s
  | _ :: _ :: _ => .error "duplicated asset"
  | [a] =>
    match s.teamsQ payload.team.id with
    | [] => .ok s
    | _ :: _ :: _ => .error "duplicated team"
    | [t] =>
      let ownersList := s.owners a.id
      let r := ownersList.foldl
        (fun (acc : Bool × Inventory) o =>
          if o.teamID ≠ t.id then
            (acc.1 || decide (o.endTime = none), acc.2)
          else
            (acc.1, (acc.2.upsertOwner a.id t.id o.startTime (some now)).2))
        (false, s)
      if r.1 then .ok r.2
      else
        match r.2.updateAsset a.id payload.assetType payload.identifier now now with
        | .error e => .error e
        | .ok (asset, s2) =>
          let s3 := (s2.parentsQ asset.id).foldl (expireParentStep now) s2
          let s4 := (s3.childrenQ asset.id).foldl (expireParentStep now) s3
          .ok s4

/-! ### At-least-once stream processor (`stream/kafka`, `AloProcessor`)

`AloProcessor.Process` is a loop; each iteration first checks the
cancellation signal, then polls the broker with a 100ms timeout. A run is
modelled by the trace of what each iteration observes: either the context
was already done at the check, or the poll produced a timeout, a broker
error, or a message (carrying its partition offset). `StoreMessage` is the
in-memory offset store and cannot fail in this model; the run returns the
offsets stored, in order. A trace that runs out is read as cancellation
(graceful stop). -/

/-- What one poll (`kafka.Consumer.ReadMessage`) produced. -/
inductive PollResult where
  | msg (offset : Nat) (m : Message)
  | timedOut
  | readErr (e : String)
deriving Repr, DecidableEq

/-- What one loop iteration of `AloProcessor.Process` observed. -/
inductive Iter where
  | cancelled
  | polled (r : PollResult)
deriving Repr, DecidableEq

/-- The outcome of a run of `AloProcessor.Process`: graceful stop, a
non-timeout broker error (wrapped), or a handler error (wrapped). -/
inductive RunOutcome (E : Type) where
  | ok
  | readErr (e : String)
  | handlerErr (e : E)
deriving Repr, DecidableEq

/-- The loop of `AloProcessor.Process` over a trace of iterations: a
timeout continues the loop; cancellation returns without error; a broker
error returns it; a message is handed to `h`, a handler error returns
immediately without storing that message's offset, and on handler success
the offset is stored (`StoreMessage`) before the next poll. -/
def aloProcess {E : Type} (h : Message → Except E Unit) :
    List Iter → RunOutcome E × List Nat
  | [] => (.ok, [])
  | .cancelled :: _ => (.ok, [])
  | .polled .timedOut :: rest => aloProcess h rest
  | .polled (.readErr e) :: _ => (.readErr e, [])
  | .polled (.msg off m) :: rest =>
    match h m with
    | .error e => (.handlerErr e, [])
    | .ok _ =>
      let r := aloProcess h rest
      (r.1, off :: r.2)

/-- An iteration that does not stop the loop: a poll timeout, or a message
that the handler `h` accepts. -/
def handledOk {E : Type} (h : Message → Except E Unit) : Iter → Bool
  | .polled .timedOut => true
  | .polled (.msg _ m) => (h m).isOk
  | _ => false

/-- The offsets of the messages delivered in a trace, in order. -/
def deliveredOffsets (trace : List Iter) : List Nat :=
  trace.filterMap fun it =>
    match it with
    | .polled (.msg off _) => some off
    | _ => none

/-! ### Predicates used in claim statements -/

/-- A list has pairwise-distinct keys under `key`. The graph store's unique
keys (internal IDs, composite edge keys) guarantee this for the states it
produces. -/
def KeyedNoDup {α κ : Type} (key : α → κ) (l : List α) : Prop :=
  l.Pairwise fun x y => key x ≠ key y

instance {α κ : Type} (key : α → κ) [DecidableEq κ] (l : List α) :
    Decidable (KeyedNoDup key l) := by
  unfold KeyedNoDup
  infer_instance

/-- Internal-ID well-formedness of a store state: asset and team IDs are
pairwise distinct and below the fresh-ID counter. -/
def Inventory.WF (s : Inventory) : Prop :=
  KeyedNoDup (fun a => a.id) s.assets ∧ (∀ a ∈ s.assets, a.id < s.nextID) ∧
    KeyedNoDup (fun t => t.id) s.teams ∧ (∀ t ∈ s.teams, t.id < s.nextID)

instance (s : Inventory) : Decidable s.WF := by
  unfold Inventory.WF
  infer_instance

/-- Some Owns edge of the asset belongs to a different team and is still
active (no end time); this is the `active` flag scanned by
`main.expireAsset`. -/
def activeOther (s : Inventory) (assetID teamID : Nat) : Prop :=
  ∃ o ∈ s.owns, o.assetID = assetID ∧ o.teamID ≠ teamID ∧ o.endTime = none

instance (s : Inventory) (assetID teamID : Nat) :
    Decidable (activeOther s assetID teamID) := by
  unfold activeOther
  infer_instance

/-- The asset resolved by (type, identifier) is unique and refreshed at
`now`: the query returns exactly `A`, whose last-seen is `now` and whose
expiration is the unexpired sentinel. -/
def NormAsset (s : Inventory) (typ identifier : String) (now : Time)
    (A : AssetResp) : Prop :=
  s.assetsQ typ identifier = [A] ∧ A.lastSeen = now ∧ A.expiration = Unexpired

/-- The team resolved by identifier is unique with the given name. -/
def NormTeam (s : Inventory) (identifier name : String) (T : TeamResp) : Prop :=
  s.teamsQ identifier = [T] ∧ T.name = name

/-- The Owns edge for (asset, team) exists, is active, and is the only edge
with that composite key; `st` is its start time. -/
def NormOwns (s : Inventory) (assetID teamID : Nat) : Prop :=
  ∃ st, (⟨assetID, teamID, st, none⟩ : OwnsResp) ∈ s.owns ∧
    ∀ o ∈ s.owns, o.assetID = assetID ∧ o.teamID = teamID →
      o = ⟨assetID, teamID, st, none⟩

/-- A ParentOf edge for (child, parent) exists and every edge with that
composite key has last-seen `now` and the unexpired sentinel expiration. -/
def NormParent (s : Inventory) (childID parentID : Nat) (now : Time) : Prop :=
  (∃ e ∈ s.parentOf, e.childID = childID ∧ e.parentID = parentID) ∧
    ∀ e ∈ s.parentOf, e.childID = childID ∧ e.parentID = parentID →
      e.lastSeen = now ∧ e.expiration = Unexpired

/-! ### Concrete inputs for counterexamples and witnesses -/

/-- A stream message with complete metadata whose version "1.0.0" fails the
major-version gate (supported major is 0). -/
def msgUnsupported : Message :=
  ⟨"team0/asset0", none,
    [⟨"version", "1.0.0"⟩, ⟨"type", "Hostname"⟩, ⟨"identifier", "www.example.com"⟩]⟩

/-- A trivial unmarshal stub used to instantiate the decoder at concrete
inputs. -/
def unmarshalStub (raw : String) : Except String AssetPayload :=
  if raw = "" then .error "unexpected end of JSON input" else .ok AssetPayload.zero

/-- An asset handler that accepts every payload, used to instantiate the
decoder at concrete inputs. -/
def acceptAll : AssetPayload → Bool → Except String Unit := fun _ _ => .ok ()

/-- Retirement payload for the concrete retirement scenarios: asset
("Hostname", "h") owned by team "team0". -/
def cexPayload : AssetPayload :=
  { AssetPayload.zero with
    assetType := "Hostname", identifier := "h",
    team := { AssetPayload.zero.team with id := "team0" } }

/-- Store state for the C2 counterexample: one asset, one team, and one
Owns edge between them that already carries an end time (5). -/
def cexOwnsEnded : Inventory :=
  ⟨2, [⟨0, "Hostname", "h", 0, 0, Unexpired⟩], [⟨1, "team0", "Team 0"⟩],
    [⟨0, 1, 1, some 5⟩], []⟩

/-- Empty store used to instantiate the idempotence theorem. -/
def c9Start : Inventory := ⟨0, [], [], [], []⟩

/-- Upsert payload for the concrete idempotence run: asset ("Hostname",
"h") owned by team "team0", no annotations. -/
def c9Payload : AssetPayload :=
  { AssetPayload.zero with
    assetType := "Hostname", identifier := "h",
    team := { AssetPayload.zero.team with id := "team0", name := "Team 0" } }

/-- The store reached by one refresh of `c9Payload` at instant 7 on the
empty store: the asset, the team and the active Owns edge between them. -/
def c9Once : Inventory :=
  ⟨2, [⟨0, "Hostname", "h", 7, 7, Unexpired⟩], [⟨1, "team0", "Team 0"⟩],
    [⟨0, 1, 7, none⟩], []⟩

/-! ## Theorems

General list helpers first, then per-component lemmas, then the claim
theorems with their witnesses and counterexamples. -/

theorem foldl_congr_mem {α β : Type} {l : List α} {f g : β → α → β} {b : β}
    (h : ∀ x ∈ l, ∀ acc, f acc x = g acc x) : l.foldl f b = l.foldl g b := by
  induction l generalizing b with
  | nil => rfl
  | cons x t ih =>
    simp only [List.foldl_cons]
    rw [h x (List.mem_cons_self x t) b]
    exact ih fun y hy acc => h y (List.mem_cons_of_mem x hy) acc

theorem foldl_pair_split {α β γ : Type} (l : List α) (f : β → α → β)
    (g : γ → α → γ) (b : β) (c : γ) :
    l.foldl (fun p o => (f p.1 o, g p.2 o)) (b, c) = (l.foldl f b, l.foldl g c) := by
  induction l generalizing b c with
  | nil => rfl
  | cons x t ih => simpa using ih (f b x) (g c x)

theorem foldl_or_any {α : Type} (l : List α) (e : α → Bool) (a : Bool) :
    l.foldl (fun acc o => acc || e o) a = (a || l.any e) := by
  induction l generalizing a with
  | nil => simp
  | cons x t ih => simp [ih (a || e x), Bool.or_assoc]

theorem KeyedNoDup.eq_of_key_eq {α κ : Type} {key : α → κ} {l : List α}
    (h : KeyedNoDup key l) {x y : α} (hx : x ∈ l) (hy : y ∈ l)
    (hk : key x = key y) : x = y := by
  by_contra hne
  exact List.Pairwise.forall (fun a b hab => (hab ∘ Eq.symm)) h hx hy hne hk

theorem KeyedNoDup.sublist {α κ : Type} {key : α → κ} {l l' : List α}
    (hs : List.Sublist l' l) (h : KeyedNoDup key l) : KeyedNoDup key l' :=
  List.Pairwise.sublist hs h

theorem KeyedNoDup.filter {α κ : Type} {key : α → κ} {l : List α}
    (h : KeyedNoDup key l) (p : α → Bool) : KeyedNoDup key (l.filter p) :=
  KeyedNoDup.sublist (List.filter_sublist l) h

theorem KeyedNoDup.map_of_key_preserved {α κ : Type} {key : α → κ} {l : List α}
    (h : KeyedNoDup key l) (g : α → α) (hg : ∀ x ∈ l, key (g x) = key x) :
    KeyedNoDup key (l.map g) := by
  rw [KeyedNoDup, List.pairwise_map]
  refine h.imp_of_mem ?_
  intro a b ha hb hab
  rw [hg a ha, hg b hb]
  exact hab

theorem find?_key_eq {α κ : Type} [DecidableEq κ] {key : α → κ} {l : List α}
    (h : KeyedNoDup key l) {a : α} (ha : a ∈ l) :
    l.find? (fun b => key b = key a) = some a := by
  induction l with
  | nil => cases ha
  | cons c t ih =>
    rw [KeyedNoDup, List.pairwise_cons] at h
    rcases List.mem_cons.mp ha with rfl | ha
    · have hd : decide (key a = key a) = true := by simp
      rw [List.find?_cons, hd]
    · have hd : decide (key c = key a) = false := by simpa using h.1 a ha
      rw [List.find?_cons, hd]
      exact ih h.2 ha

theorem upsertBy_present {α κ : Type} [DecidableEq κ] {key : α → κ} {k : κ}
    {u : α → α} {v : α} {l : List α} (hp : ∃ x ∈ l, key x = k) :
    upsertBy key k u v l = l.map (fun x => if key x = k then u x else x) := by
  rw [upsertBy, if_pos]
  rw [List.any_eq_true]
  obtain ⟨x, hx, hk⟩ := hp
  exact ⟨x, hx, by simpa using hk⟩

theorem upsertBy_absent {α κ : Type} [DecidableEq κ] {key : α → κ} {k : κ}
    {u : α → α} {v : α} {l : List α} (hp : ¬ ∃ x ∈ l, key x = k) :
    upsertBy key k u v l = l ++ [v] := by
  rw [upsertBy, if_neg]
  rw [List.any_eq_true]
  simpa using hp

theorem foldl_upsertBy_eq_map {α κ : Type} [DecidableEq α] [DecidableEq κ]
    (key : α → κ) (C : α → Bool) (uf : α → α → α) (vf : α → α) (f : α → α) :
    ∀ (todo M : List α),
      (∀ o ∈ todo, C o = true → uf o o = f o) →
      (∀ o ∈ todo, C o = true → key (f o) = key o) →
      KeyedNoDup key todo → KeyedNoDup key M →
      (∀ o ∈ todo, o ∈ M) →
      todo.foldl
          (fun acc o => if C o then upsertBy key (key o) (uf o) (vf o) acc else acc) M
        = M.map (fun x => if x ∈ todo ∧ C x = true then f x else x)
  | [], M, _, _, _, _, _ => by
    simp
  | o :: rest, M, hu, hk, htodo, hM, hmem => by
    have homem : o ∈ M := hmem o (List.mem_cons_self o rest)
    have huo : C o = true → uf o o = f o := hu o (List.mem_cons_self o rest)
    have hko : C o = true → key (f o) = key o := hk o (List.mem_cons_self o rest)
    rw [KeyedNoDup, List.pairwise_cons] at htodo
    have hrest_nd : KeyedNoDup key rest := htodo.2
    rw [List.foldl_cons]
    by_cases hC : C o = true
    · rw [if_pos hC, upsertBy_present ⟨o, homem, rfl⟩]
      set g0 : α → α := fun x => if key x = key o then uf o x else x with hg0
      have hg0key : ∀ x ∈ M, key (g0 x) = key x := by
        intro x hx
        simp only [hg0]
        by_cases hxk : key x = key o
        · have hxo : x = o := hM.eq_of_key_eq hx homem hxk
          rw [if_pos hxk, hxo, huo hC, hko hC]
        · rw [if_neg hxk]
      have hM1 : KeyedNoDup key (M.map g0) := hM.map_of_key_preserved g0 hg0key
      have hmem1 : ∀ o' ∈ rest, o' ∈ M.map g0 := by
        intro o' ho'
        refine List.mem_map.mpr ⟨o', hmem o' (List.mem_cons_of_mem o ho'), ?_⟩
        simp only [hg0]
        exact if_neg fun hkeq => htodo.1 o' ho' hkeq.symm
      rw [foldl_upsertBy_eq_map key C uf vf f rest (M.map g0)
        (fun x hx hCx => hu x (List.mem_cons_of_mem o hx) hCx)
        (fun x hx hCx => hk x (List.mem_cons_of_mem o hx) hCx)
        hrest_nd hM1 hmem1]
      rw [List.map_map]
      refine List.map_congr_left ?_
      intro x hx
      simp only [Function.comp_apply, hg0]
      by_cases hxk : key x = key o
      · have hxo : x = o := hM.eq_of_key_eq hx homem hxk
        have hfnotin : f o ∉ rest := fun hcontra =>
          htodo.1 (f o) hcontra (hko hC).symm
        rw [if_pos hxk, hxo, huo hC,
          if_neg (fun hcontra => hfnotin hcontra.1),
          if_pos ⟨List.mem_cons_self o rest, hC⟩]
      · have hxo : x ≠ o := fun hcontra => hxk (by rw [hcontra])
        rw [if_neg hxk]
        by_cases hxr : x ∈ rest ∧ C x = true
        · rw [if_pos hxr, if_pos ⟨List.mem_cons_of_mem o hxr.1, hxr.2⟩]
        · rw [if_neg hxr, if_neg]
          intro hcontra
          rcases List.mem_cons.mp hcontra.1 with h1 | h1
          · exact hxo h1
          · exact hxr ⟨h1, hcontra.2⟩
    · rw [if_neg hC]
      rw [foldl_upsertBy_eq_map key C uf vf f rest M
        (fun x hx hCx => hu x (List.mem_cons_of_mem o hx) hCx)
        (fun x hx hCx => hk x (List.mem_cons_of_mem o hx) hCx)
        hrest_nd hM (fun x hx => hmem x (List.mem_cons_of_mem o hx))]
      refine List.map_congr_left ?_
      intro x hx
      by_cases hxr : x ∈ rest ∧ C x = true
      · rw [if_pos hxr, if_pos ⟨List.mem_cons_of_mem o hxr.1, hxr.2⟩]
      · rw [if_neg hxr, if_neg]
        intro hcontra
        rcases List.mem_cons.mp hcontra.1 with h1 | h1
        · rw [h1] at hcontra
          exact hC hcontra.2
        · exact hxr ⟨h1, hcontra.2⟩

/-! ### Claim C4: the version gate -/

theorem splitOnSep_ne_nil (sep : Char) (cs : List Char) : splitOnSep sep cs ≠ [] := by
  cases cs with
  | nil => simp [splitOnSep]
  | cons c rest =>
    simp only [splitOnSep]
    rcases h : splitOnSep sep rest with _ | ⟨g, gs⟩
    · simp
    · by_cases hc : c = sep <;> simp [hc]

/-- Claim C4, counterexample: the version string "0.a.0" has a non-numeric
second component, so the claimed condition ("at least three numeric
dot-separated components") rejects it, yet `supportedVersion` accepts it:
the code only requires the leading (major) component to be numeric. -/
theorem supportedVersion_cexC4 :
    supportedVersion "0.a.0" = true ∧ specSupportedVersion "0.a.0" = false := by
  constructor <;> rfl

/-- Claim C4 as amended: `supportedVersion v` returns true if and only if,
after stripping one optional leading 'v' character, `v` splits on '.' into
at least three components and the leading (major) component parses as an
integer (as by Go `strconv.Atoi`) equal to the supported major version 0;
components after the first need not be numeric. Empty and malformed
version strings are unsupported. -/
theorem supportedVersion_major_gate (v : String) :
    supportedVersion v = true ↔
      ∃ c rest p ps, v.data = c :: rest ∧
        splitOnSep '.' (if c = 'v' then rest else c :: rest) = p :: ps ∧
        2 ≤ ps.length ∧ goAtoi p = some MajorVersion := by
  rcases hv : v.data with _ | ⟨c, rest⟩
  · simp [supportedVersion, hv]
  · simp only [supportedVersion, hv]
    rcases hsp : splitOnSep '.' (if c = 'v' then rest else c :: rest) with _ | ⟨p, ps⟩
    · exact absurd hsp (splitOnSep_ne_nil _ _)
    · show (if ps.length + 1 < 3 then false
          else match goAtoi p with
            | none => false
            | some major => decide (major = MajorVersion)) = true ↔ _
      by_cases hlen : ps.length + 1 < 3
      · rw [if_pos hlen]
        simp only [Bool.false_eq_true, false_iff]
        rintro ⟨c', rest', p', ps', hv', hsp', hlen', _⟩
        obtain ⟨rfl, rfl⟩ : c = c' ∧ rest = rest' := by
          constructor <;> injection hv'
        rw [hsp] at hsp'
        obtain ⟨rfl, rfl⟩ : p = p' ∧ ps = ps' := by
          constructor <;> injection hsp'
        omega
      · rw [if_neg hlen]
        rcases hat : goAtoi p with _ | m
        · simp only [Bool.false_eq_true, false_iff]
          rintro ⟨c', rest', p', ps', hv', hsp', _, hat'⟩
          obtain ⟨rfl, rfl⟩ : c = c' ∧ rest = rest' := by
            constructor <;> injection hv'
          rw [hsp] at hsp'
          obtain ⟨rfl, rfl⟩ : p = p' ∧ ps = ps' := by
            constructor <;> injection hsp'
          rw [hat] at hat'
          cases hat'
        · constructor
          · intro hm
            refine ⟨c, rest, p, ps, rfl, hsp, by omega, ?_⟩
            rw [hat]
            exact congrArg some (of_decide_eq_true hm)
          · rintro ⟨c', rest', p', ps', hv', hsp', _, hat'⟩
            obtain ⟨rfl, rfl⟩ : c = c' ∧ rest = rest' := by
              constructor <;> injection hv'
            rw [hsp] at hsp'
            obtain ⟨rfl, rfl⟩ : p = p' ∧ ps = ps' := by
              constructor <;> injection hsp'
            rw [hat] at hat'
            injection hat' with hm
            exact decide_eq_true hm

/-! ### Claim C5: AWS account ID normalization -/

theorem longAWSAccountMatch_parts (d : List Char) (hlen : d.length = 12)
    (hdig : ∀ ch ∈ d, ch.isDigit = true) :
    longAWSAccountMatch ("arn:aws:iam::".data ++ (d ++ ":root".data)) = true := by
  have h13 : "arn:aws:iam::".data.length = 13 := by decide
  have h5 : (":root".data : List Char).length = 5 := by decide
  have hlen30 : ("arn:aws:iam::".data ++ (d ++ ":root".data)).length = 30 := by
    simp [List.length_append, h13, h5, hlen]
  have htake : ("arn:aws:iam::".data ++ (d ++ ":root".data)).take 13 =
      "arn:aws:iam::".data := by
    rw [← h13, List.take_left]
  have hdrop13 : ("arn:aws:iam::".data ++ (d ++ ":root".data)).drop 13 =
      d ++ ":root".data := by
    rw [← h13, List.drop_left]
  have hmid : (("arn:aws:iam::".data ++ (d ++ ":root".data)).drop 13).take 12 = d := by
    rw [hdrop13, ← hlen, List.take_left]
  have hdrop25 : ("arn:aws:iam::".data ++ (d ++ ":root".data)).drop 25 =
      ":root".data := by
    have h1 : (("arn:aws:iam::".data ++ (d ++ ":root".data)).drop 13).drop 12 =
        ("arn:aws:iam::".data ++ (d ++ ":root".data)).drop 25 :=
      List.drop_drop 12 13 _
    rw [← h1, hdrop13, ← hlen, List.drop_left]
  have hall : d.all Char.isDigit = true := List.all_eq_true.mpr hdig
  rw [longAWSAccountMatch, hlen30, htake, hmid, hdrop25, hall]
  decide

/-- Claim C5: `normalizeAWSAccountID` maps a bare 12-digit numeric account
ID d to "arn:aws:iam::d:root", returns an input already of that long form
unchanged, and returns an error for every other input (neither regular
expression matches); in particular "123456789012" and
"arn:aws:iam::123456789012:root" resolve to the same identifier and
"12345abc9012" is rejected. -/
theorem normalizeAWSAccountID_spec :
    (∀ d : String, d.data.length = 12 → (∀ ch ∈ d.data, ch.isDigit = true) →
      normalizeAWSAccountID d = .ok ("arn:aws:iam::" ++ d ++ ":root")) ∧
    (∀ d : String, d.data.length = 12 → (∀ ch ∈ d.data, ch.isDigit = true) →
      normalizeAWSAccountID ("arn:aws:iam::" ++ d ++ ":root") =
        .ok ("arn:aws:iam::" ++ d ++ ":root")) ∧
    (∀ id : String, shortAWSAccountMatch id.data = false →
      longAWSAccountMatch id.data = false →
      (normalizeAWSAccountID id).isOk = false) ∧
    normalizeAWSAccountID "123456789012" = .ok "arn:aws:iam::123456789012:root" ∧
    normalizeAWSAccountID "arn:aws:iam::123456789012:root" =
      .ok "arn:aws:iam::123456789012:root" ∧
    (normalizeAWSAccountID "12345abc9012").isOk = false := by
  refine ⟨?_, ?_, ?_, by rfl, by rfl, by rfl⟩
  · intro d hlen hdig
    have hlong : longAWSAccountMatch d.data = false := by
      rw [longAWSAccountMatch, hlen]
      simp
    have hshort : shortAWSAccountMatch d.data = true := by
      have hall : d.data.all Char.isDigit = true := List.all_eq_true.mpr hdig
      rw [shortAWSAccountMatch, hlen, hall]
      decide
    rw [normalizeAWSAccountID, hlong, hshort]
    simp
  · intro d hlen hdig
    have hdata : ("arn:aws:iam::" ++ d ++ ":root").data =
        "arn:aws:iam::".data ++ (d.data ++ ":root".data) := by
      rw [String.data_append, String.data_append, List.append_assoc]
    have hlong : longAWSAccountMatch ("arn:aws:iam::" ++ d ++ ":root").data = true := by
      rw [hdata]
      exact longAWSAccountMatch_parts d.data hlen hdig
    rw [normalizeAWSAccountID, hlong]
    simp
  · intro id hshort hlong
    rw [normalizeAWSAccountID, hlong, hshort]
    simp [Except.isOk, Except.toBool]

/-- Witness for claim C5 at a concrete input. -/
theorem normalizeAWSAccountID_specW :
    normalizeAWSAccountID "000000000000" = .ok "arn:aws:iam::000000000000:root" :=
  normalizeAWSAccountID_spec.1 "000000000000" (by decide) (by decide)

/-! ### Claims C8, C1, C10: stream loop and decoder -/

theorem aloProcess_append_ok {E : Type} (h : Message → Except E Unit)
    (pre tail : List Iter) (hpre : ∀ it ∈ pre, handledOk h it = true) :
    aloProcess h (pre ++ tail) =
      ((aloProcess h tail).1, deliveredOffsets pre ++ (aloProcess h tail).2) := by
  induction pre with
  | nil => rfl
  | cons it rest ih =>
    have hit : handledOk h it = true := hpre it (List.mem_cons_self it rest)
    have hrest : ∀ x ∈ rest, handledOk h x = true :=
      fun x hx => hpre x (List.mem_cons_of_mem it hx)
    cases it with
    | cancelled => cases hit
    | polled r =>
      cases r with
      | timedOut =>
        show aloProcess h (rest ++ tail) = _
        rw [ih hrest]
        rfl
      | readErr e => cases hit
      | msg off m =>
        rcases hm : h m with e | u
        · rw [handledOk, hm] at hit
          cases hit
        · show (match h m with
            | .error e => ((.handlerErr e : RunOutcome E), ([] : List Nat))
            | .ok _ =>
              ((aloProcess h (rest ++ tail)).1,
                off :: (aloProcess h (rest ++ tail)).2)) = _
          rw [hm, ih hrest]
          rfl

/-- Claim C8: when the per-message handler fails on a message, the stream
loop stops with that error and that message's offset is not stored, while
the offsets of all previously (successfully) handled messages are stored;
runs in which every handler call succeeds store every delivered message's
offset and stop only on cancellation. -/
theorem aloProcess_at_least_once {E : Type} (h : Message → Except E Unit)
    (pre rest : List Iter) (off : Nat) (m : Message) (e : E)
    (hpre : ∀ it ∈ pre, handledOk h it = true) (hm : h m = .error e) :
    (aloProcess h (pre ++ Iter.polled (.msg off m) :: rest)
        = (.handlerErr e, deliveredOffsets pre) ∧
      (off ∉ deliveredOffsets pre →
        off ∉ (aloProcess h (pre ++ Iter.polled (.msg off m) :: rest)).2)) ∧
    ∀ trace : List Iter, (∀ it ∈ trace, handledOk h it = true) →
      aloProcess h trace = (.ok, deliveredOffsets trace) := by
  have h1 : aloProcess h (pre ++ Iter.polled (.msg off m) :: rest)
      = (.handlerErr e, deliveredOffsets pre) := by
    rw [aloProcess_append_ok h pre _ hpre]
    show ((match h m with
      | .error e => ((.handlerErr e : RunOutcome E), ([] : List Nat))
      | .ok _ => ((aloProcess h rest).1, off :: (aloProcess h rest).2)).1,
        _ ++ (match h m with
          | .error e => ((.handlerErr e : RunOutcome E), ([] : List Nat))
          | .ok _ => ((aloProcess h rest).1, off :: (aloProcess h rest).2)).2) = _
    rw [hm]
    simp
  refine ⟨⟨h1, ?_⟩, ?_⟩
  · intro hnotin
    rw [h1]
    exact hnotin
  · intro trace htrace
    have := aloProcess_append_ok h trace [] htrace
    rw [List.append_nil] at this
    rw [this]
    simp [aloProcess, deliveredOffsets]

/-- Witness for claim C8: a concrete run with one timeout, one handled
message (offset 3) and a failing message (offset 7). -/
theorem aloProcess_at_least_onceW :
    aloProcess
        (fun msg => if msg.key = "bad" then (.error "boom" : Except String Unit)
          else .ok ())
        ([Iter.polled .timedOut, Iter.polled (.msg 3 ⟨"a", none, []⟩)] ++
          Iter.polled (.msg 7 ⟨"bad", none, []⟩) :: [])
      = (.handlerErr "boom", [3]) :=
  (aloProcess_at_least_once
    (fun msg => if msg.key = "bad" then (.error "boom" : Except String Unit)
      else .ok ())
    [Iter.polled .timedOut, Iter.polled (.msg 3 ⟨"a", none, []⟩)] []
    7 ⟨"bad", none, []⟩ "boom" (by decide) (by rfl)).1.1

/-- Claim C1, counterexample: the message `msgUnsupported` carries complete
metadata and the version "1.0.0", which fails the major-version check, yet
the per-message closure of `Client.ProcessAssets` does not return success:
it returns `ErrUnsupportedVersion`. -/
theorem processAssets_unsupported_cexC1 :
    parseMetadata msgUnsupported = .ok ("1.0.0", "Hostname", "www.example.com") ∧
    supportedVersion "1.0.0" = false ∧
    processAssetsHandler unmarshalStub acceptAll msgUnsupported =
      .error .unsupportedVersion :=
  ⟨rfl, rfl, rfl⟩

/-- Claim C1 as amended: for every stream message whose metadata carries
version, type and identifier but whose version fails the major-version
compatibility check, processing produces zero graph mutations (the asset
handler is never invoked) but it does error: the per-message closure
returns `ErrUnsupportedVersion`, so the stream run stops with that error
and the message's position is not stored. -/
theorem processAssets_unsupported_version {E : Type}
    (u : String → Except String AssetPayload)
    (h : AssetPayload → Bool → Except E Unit) (msg : Message) (v t i : String)
    (hmeta : parseMetadata msg = .ok (v, t, i))
    (hver : supportedVersion v = false) :
    processAssetsHandler u h msg = .error .unsupportedVersion ∧
    ∀ (pre rest : List Iter) (off : Nat),
      (∀ it ∈ pre, handledOk (processAssetsHandler u h) it = true) →
      aloProcess (processAssetsHandler u h)
          (pre ++ Iter.polled (.msg off msg) :: rest)
        = (.handlerErr .unsupportedVersion, deliveredOffsets pre) := by
  have h1 : processAssetsHandler u h msg = .error .unsupportedVersion := by
    simp only [processAssetsHandler, hmeta, hver]
    rfl
  refine ⟨h1, ?_⟩
  intro pre rest off hpre
  rw [aloProcess_append_ok _ pre _ hpre]
  simp only [aloProcess, h1, List.append_nil]

/-- Witness for the amended claim C1 at the concrete message
`msgUnsupported`. -/
theorem processAssets_unsupported_versionW :
    processAssetsHandler unmarshalStub acceptAll msgUnsupported =
        .error .unsupportedVersion ∧
      aloProcess (processAssetsHandler unmarshalStub acceptAll)
          ([] ++ Iter.polled (.msg 0 msgUnsupported) :: [])
        = (.handlerErr .unsupportedVersion, []) := by
  have h := processAssets_unsupported_version unmarshalStub acceptAll
    msgUnsupported "1.0.0" "Hostname" "www.example.com" (by rfl) (by rfl)
  exact ⟨h.1, h.2 [] [] 0 (by intro it hit; cases hit)⟩

/-- Claim C10: for a tombstone message (nil value) with complete metadata
and a supported version, the per-message closure fails with an
invalid-message-ID error unless the key splits on '/' into exactly two
parts; when it does, the first part becomes the retirement payload's
Team.ID and the second its asset ID, alongside the declared type and
identifier from metadata, and the user handler's verdict is returned. -/
theorem processAssets_tombstone {E : Type}
    (u : String → Except String AssetPayload)
    (h : AssetPayload → Bool → Except E Unit) (msg : Message) (v t i : String)
    (hmeta : parseMetadata msg = .ok (v, t, i))
    (hver : supportedVersion v = true) (hnil : msg.value = none) :
    ((splitOnSep '/' msg.key.data).length ≠ 2 →
      processAssetsHandler u h msg =
        .error (.invalidMessageID "invalid message ID")) ∧
    ∀ teamID assetID : List Char,
      splitOnSep '/' msg.key.data = [teamID, assetID] →
      processAssetsHandler u h msg =
        (h { AssetPayload.zero with
              id := String.mk assetID, assetType := t, identifier := i,
              team := { AssetPayload.zero.team with id := String.mk teamID } }
          true).mapError VulcanErr.handler := by
  constructor
  · intro hlen
    simp only [processAssetsHandler, hmeta, hver, hnil, parseMessageID]
    rcases hsp : splitOnSep '/' msg.key.data with _ | ⟨a, _ | ⟨b, _ | ⟨c, l⟩⟩⟩
    · rfl
    · rfl
    · rw [hsp] at hlen
      exact absurd rfl hlen
    · rfl
  · intro teamID assetID hsp
    simp only [processAssetsHandler, hmeta, hver, hnil, parseMessageID, hsp]
    rcases hh : h { AssetPayload.zero with
        id := String.mk assetID, assetType := t, identifier := i,
        team := { AssetPayload.zero.team with id := String.mk teamID } } true
      with e | x
    · rfl
    · rfl

/-- Witness for claim C10 at a concrete tombstone message. -/
theorem processAssets_tombstoneW :
    processAssetsHandler unmarshalStub acceptAll
        ⟨"team7/asset9", none,
          [⟨"version", "v0.1.0"⟩, ⟨"type", "Hostname"⟩, ⟨"identifier", "www"⟩]⟩
      = .ok () :=
  (processAssets_tombstone unmarshalStub acceptAll
      ⟨"team7/asset9", none,
        [⟨"version", "v0.1.0"⟩, ⟨"type", "Hostname"⟩, ⟨"identifier", "www"⟩]⟩
      "v0.1.0" "Hostname" "www" (by rfl) (by rfl) (by rfl)).2
    "team7".data "asset9".data (by decide)

/-! ### Claims C6, C7: zero/one/many resolution -/

/-- Claim C6: resolving an asset by (type, identifier) in the upsert branch
follows the zero/one/many policy: exactly one match updates that asset's
last-seen to `now` and its expiration to the unexpired sentinel; zero
matches creates it with timestamp `now` and unexpired expiration; more than
one match yields the fatal "duplicated asset" error. -/
theorem upsertAsset_zero_one_many (s : Inventory) (p : AssetPayload) (now : Time) :
    (s.assetsQ p.assetType p.identifier = [] →
      upsertAsset s p now =
        .ok (⟨s.nextID, p.assetType, p.identifier, now, now, Unexpired⟩,
          { s with
            nextID := s.nextID + 1,
            assets := s.assets ++
              [⟨s.nextID, p.assetType, p.identifier, now, now, Unexpired⟩] })) ∧
    (∀ a, s.assetsQ p.assetType p.identifier = [a] →
      KeyedNoDup (fun x => x.id) s.assets →
      upsertAsset s p now =
        .ok ({ a with
                typ := p.assetType, identifier := p.identifier,
                lastSeen := now, expiration := Unexpired },
          { s with
            assets := s.assets.map fun b =>
              if b.id = a.id then
                { b with
                    typ := p.assetType, identifier := p.identifier,
                    lastSeen := now, expiration := Unexpired }
              else b })) ∧
    (2 ≤ (s.assetsQ p.assetType p.identifier).length →
      upsertAsset s p now = .error "duplicated asset") := by
  refine ⟨?_, ?_, ?_⟩
  · intro h
    simp only [upsertAsset, h, Inventory.createAsset]
  · intro a h hnd
    have hmem : a ∈ s.assets :=
      List.mem_of_mem_filter (h ▸ List.mem_cons_self a [])
    have hfind : s.assets.find? (fun b => b.id = a.id) = some a :=
      @find?_key_eq _ _ _ (fun x : AssetResp => x.id) _ hnd _ hmem
    simp only [upsertAsset, h, Inventory.updateAsset, hfind]
  · intro h
    rcases hq : s.assetsQ p.assetType p.identifier with _ | ⟨x, _ | ⟨y, t⟩⟩
    · rw [hq] at h
      simp at h
    · rw [hq] at h
      simp at h
    · simp only [upsertAsset, hq]

/-- Witness for claim C6: creating an asset in an empty store. -/
theorem upsertAsset_zero_one_manyW :
    upsertAsset ⟨0, [], [], [], []⟩ cexPayload 5 =
      .ok (⟨0, "Hostname", "h", 5, 5, Unexpired⟩,
        ⟨1, [⟨0, "Hostname", "h", 5, 5, Unexpired⟩], [], [], []⟩) :=
  (upsertAsset_zero_one_many ⟨0, [], [], [], []⟩ cexPayload 5).1 (by rfl)

/-- Claim C7: during retirement, a zero-match asset lookup or a zero-match
team lookup makes `expireAsset` return success with the store untouched,
while more than one match for either is the fatal duplicated-entity
error. -/
theorem expireAsset_absent_or_dup (s : Inventory) (p : AssetPayload) (now : Time) :
    (s.assetsQ p.assetType p.identifier = [] → expireAsset s p now = .ok s) ∧
    (2 ≤ (s.assetsQ p.assetType p.identifier).length →
      expireAsset s p now = .error "duplicated asset") ∧
    (∀ a, s.assetsQ p.assetType p.identifier = [a] →
      s.teamsQ p.team.id = [] → expireAsset s p now = .ok s) ∧
    (∀ a, s.assetsQ p.assetType p.identifier = [a] →
      2 ≤ (s.teamsQ p.team.id).length →
      expireAsset s p now = .error "duplicated team") := by
  refine ⟨?_, ?_, ?_, ?_⟩
  · intro h
    simp only [expireAsset, h]
  · intro h
    rcases hq : s.assetsQ p.assetType p.identifier with _ | ⟨x, _ | ⟨y, t⟩⟩
    · rw [hq] at h
      simp at h
    · rw [hq] at h
      simp at h
    · simp only [expireAsset, hq]
  · intro a ha ht
    simp only [expireAsset, ha, ht]
  · intro a ha ht
    rcases hq : s.teamsQ p.team.id with _ | ⟨x, _ | ⟨y, t⟩⟩
    · rw [hq] at ht
      simp at ht
    · rw [hq] at ht
      simp at ht
    · simp only [expireAsset, ha, hq]

/-- Witness for claim C7: retiring an asset that does not exist is a
no-op. -/
theorem expireAsset_absent_or_dupW :
    expireAsset ⟨0, [], [], [], []⟩ cexPayload 5 = .ok ⟨0, [], [], [], []⟩ :=
  (expireAsset_absent_or_dup ⟨0, [], [], [], []⟩ cexPayload 5).1 (by rfl)

/-! ### Claims C2, C3: the retirement branch -/

theorem foldl_owns_lift (todo : List OwnsResp) (s : Inventory)
    (F : Inventory → OwnsResp → Inventory)
    (step : List OwnsResp → OwnsResp → List OwnsResp)
    (hF : ∀ st o, F st o = { st with owns := step st.owns o }) :
    todo.foldl F s = { s with owns := todo.foldl step s.owns } := by
  induction todo generalizing s with
  | nil => rfl
  | cons o rest ih =>
    rw [List.foldl_cons, List.foldl_cons, hF]
    exact ih { s with owns := step s.owns o }

theorem foldl_parentOf_lift (todo : List ParentOfResp) (s : Inventory)
    (F : Inventory → ParentOfResp → Inventory)
    (step : List ParentOfResp → ParentOfResp → List ParentOfResp)
    (hF : ∀ st e, F st e = { st with parentOf := step st.parentOf e }) :
    todo.foldl F s = { s with parentOf := todo.foldl step s.parentOf } := by
  induction todo generalizing s with
  | nil => rfl
  | cons e rest ih =>
    rw [List.foldl_cons, List.foldl_cons, hF]
    exact ih { s with parentOf := step s.parentOf e }

theorem expire_loop_char (s : Inventory) (aid tid : Nat) (now : Time)
    (hnd : KeyedNoDup ownsKey s.owns) :
    (s.owners aid).foldl
        (fun (acc : Bool × Inventory) o =>
          if o.teamID ≠ tid then (acc.1 || decide (o.endTime = none), acc.2)
          else (acc.1, (acc.2.upsertOwner aid tid o.startTime (some now)).2))
        (false, s)
      = (decide (activeOther s aid tid),
        { s with
          owns := s.owns.map fun o =>
            if o.assetID = aid ∧ o.teamID = tid then { o with endTime := some now }
            else o }) := by
  have hstep : (fun (acc : Bool × Inventory) o =>
        if o.teamID ≠ tid then (acc.1 || decide (o.endTime = none), acc.2)
        else (acc.1, (acc.2.upsertOwner aid tid o.startTime (some now)).2))
      = fun (acc : Bool × Inventory) o =>
        ((fun (b : Bool) (o : OwnsResp) =>
          if o.teamID ≠ tid then b || decide (o.endTime = none) else b) acc.1 o,
         (fun (st : Inventory) (o : OwnsResp) =>
          if o.teamID ≠ tid then st
          else (st.upsertOwner aid tid o.startTime (some now)).2) acc.2 o) := by
    funext acc o
    by_cases h : o.teamID ≠ tid
    · simp only [if_pos h]
    · simp only [if_neg h]
  rw [hstep, foldl_pair_split (s.owners aid)
    (fun (b : Bool) (o : OwnsResp) =>
      if o.teamID ≠ tid then b || decide (o.endTime = none) else b)
    (fun (st : Inventory) (o : OwnsResp) =>
      if o.teamID ≠ tid then st
      else (st.upsertOwner aid tid o.startTime (some now)).2)
    false s]
  have hB : (s.owners aid).foldl
      (fun (b : Bool) (o : OwnsResp) =>
        if o.teamID ≠ tid then b || decide (o.endTime = none) else b)
      false = decide (activeOther s aid tid) := by
    have hfn : (fun (b : Bool) (o : OwnsResp) =>
        if o.teamID ≠ tid then b || decide (o.endTime = none) else b)
      = fun (b : Bool) (o : OwnsResp) =>
        b || (decide (o.teamID ≠ tid) && decide (o.endTime = none)) := by
      funext b o
      by_cases h : o.teamID ≠ tid
      · simp [h]
      · simp [h]
    rw [hfn, foldl_or_any, Bool.false_or]
    by_cases hact : activeOther s aid tid
    · rw [decide_eq_true hact]
      rw [List.any_eq_true]
      obtain ⟨o, ho, h1, h2, h3⟩ := hact
      refine ⟨o, ?_, ?_⟩
      · rw [Inventory.owners, List.mem_filter]
        exact ⟨ho, by simpa using h1⟩
      · simp [h2, h3]
    · rw [decide_eq_false hact]
      rw [← Bool.not_eq_true, List.any_eq_true]
      rintro ⟨o, ho, hcond⟩
      rw [Inventory.owners, List.mem_filter] at ho
      apply hact
      refine ⟨o, ho.1, by simpa using ho.2, ?_, ?_⟩
      · have := (Bool.and_eq_true _ _).mp hcond
        simpa using this.1
      · have := (Bool.and_eq_true _ _).mp hcond
        simpa using this.2
  have hS : (s.owners aid).foldl
      (fun (st : Inventory) (o : OwnsResp) =>
        if o.teamID ≠ tid then st
        else (st.upsertOwner aid tid o.startTime (some now)).2) s
      = { s with
          owns := s.owns.map fun o =>
            if o.assetID = aid ∧ o.teamID = tid then { o with endTime := some now }
            else o } := by
    rw [foldl_owns_lift (s.owners aid) s _
      (fun M o =>
        if o.teamID ≠ tid then M
        else upsertBy ownsKey (aid, tid)
          (fun x => { x with startTime := o.startTime, endTime := some now })
          ⟨aid, tid, o.startTime, some now⟩ M)
      (by
        intro st o
        show _ = { st with
          owns := if o.teamID ≠ tid then st.owns
            else upsertBy ownsKey (aid, tid)
              (fun x => { x with startTime := o.startTime, endTime := some now })
              ⟨aid, tid, o.startTime, some now⟩ st.owns }
        by_cases h : o.teamID ≠ tid
        · rw [if_pos h, if_pos h]
        · rw [if_neg h, if_neg h]
          rfl)]
    have hcongr : (s.owners aid).foldl
        (fun M o =>
          if o.teamID ≠ tid then M
          else upsertBy ownsKey (aid, tid)
            (fun x => { x with startTime := o.startTime, endTime := some now })
            ⟨aid, tid, o.startTime, some now⟩ M) s.owns
      = (s.owners aid).foldl
        (fun M o =>
          if (fun o => decide (o.teamID = tid)) o = true then
            upsertBy ownsKey (ownsKey o)
              ((fun o x => { x with startTime := o.startTime, endTime := some now }) o)
              ((fun o => (⟨o.assetID, o.teamID, o.startTime, some now⟩ : OwnsResp)) o) M
          else M) s.owns := by
      refine foldl_congr_mem ?_
      intro o ho M
      have hoa : o.assetID = aid := by
        rw [Inventory.owners, List.mem_filter] at ho
        simpa using ho.2
      by_cases h : o.teamID = tid
      · rw [if_neg (by simpa using h), if_pos (by simpa using h)]
        have hkey : ownsKey o = (aid, tid) := by
          rw [ownsKey, hoa, h]
        rw [hkey]
        show upsertBy ownsKey (aid, tid)
            (fun x => { x with startTime := o.startTime, endTime := some now })
            ⟨aid, tid, o.startTime, some now⟩ M
          = upsertBy ownsKey (aid, tid)
            (fun x => { x with startTime := o.startTime, endTime := some now })
            ⟨o.assetID, o.teamID, o.startTime, some now⟩ M
        rw [hoa, h]
      · rw [if_pos (by simpa using h), if_neg (by simpa using h)]
    rw [hcongr]
    rw [foldl_upsertBy_eq_map ownsKey (fun o => decide (o.teamID = tid))
      (fun o x => { x with startTime := o.startTime, endTime := some now })
      (fun o => (⟨o.assetID, o.teamID, o.startTime, some now⟩ : OwnsResp))
      (fun x => { x with endTime := some now })
      (s.owners aid) s.owns
      (fun o _ _ => rfl)
      (fun o _ _ => rfl)
      (hnd.filter _) hnd
      (fun o ho => List.mem_of_mem_filter ho)]
    refine congrArg (fun l => { s with owns := l }) ?_
    refine List.map_congr_left ?_
    intro x hx
    by_cases hc : x.assetID = aid ∧ x.teamID = tid
    · rw [if_pos hc, if_pos]
      constructor
      · rw [Inventory.owners, List.mem_filter]
        exact ⟨hx, by simpa using hc.1⟩
      · simpa using hc.2
    · rw [if_neg hc, if_neg]
      rintro ⟨hmem, hteam⟩
      rw [Inventory.owners, List.mem_filter] at hmem
      exact hc ⟨by simpa using hmem.2, by simpa using hteam⟩
  rw [hB, hS]

theorem foldl_expireParentStep_owns (now : Time) (todo : List ParentOfResp)
    (init : Inventory) :
    (todo.foldl (expireParentStep now) init).owns = init.owns := by
  induction todo generalizing init with
  | nil => rfl
  | cons e rest ih =>
    rw [List.foldl_cons, ih (expireParentStep now init e)]
    simp only [expireParentStep]
    by_cases h : e.expiration ≤ now
    · rw [if_pos h]
    · rw [if_neg h]
      rfl

theorem foldl_expireParentStep_assets (now : Time) (todo : List ParentOfResp)
    (init : Inventory) :
    (todo.foldl (expireParentStep now) init).assets = init.assets := by
  induction todo generalizing init with
  | nil => rfl
  | cons e rest ih =>
    rw [List.foldl_cons, ih (expireParentStep now init e)]
    simp only [expireParentStep]
    by_cases h : e.expiration ≤ now
    · rw [if_pos h]
    · rw [if_neg h]
      rfl

theorem foldl_expireParentStep_teams (now : Time) (todo : List ParentOfResp)
    (init : Inventory) :
    (todo.foldl (expireParentStep now) init).teams = init.teams := by
  induction todo generalizing init with
  | nil => rfl
  | cons e rest ih =>
    rw [List.foldl_cons, ih (expireParentStep now init e)]
    simp only [expireParentStep]
    by_cases h : e.expiration ≤ now
    · rw [if_pos h]
    · rw [if_neg h]
      rfl

/-- Claim C2, counterexample: in `cexOwnsEnded` the only Owns edge of the
resolved team already carries an end time (5); the claim says such an edge
is left unchanged, but `expireAsset` at now = 10 rewrites its end time to
10, so the original edge is gone from the store. -/
theorem expireAsset_cexC2 :
    expireAsset cexOwnsEnded cexPayload 10 =
      .ok ⟨2, [⟨0, "Hostname", "h", 0, 10, 10⟩], [⟨1, "team0", "Team 0"⟩],
        [⟨0, 1, 1, some 10⟩], []⟩ ∧
    (⟨0, 1, 1, some 5⟩ : OwnsResp) ∈ cexOwnsEnded.owns ∧
    (⟨0, 1, 1, some 5⟩ : OwnsResp) ∉
      (⟨2, [⟨0, "Hostname", "h", 0, 10, 10⟩], [⟨1, "team0", "Team 0"⟩],
        [⟨0, 1, 1, some 10⟩], []⟩ : Inventory).owns :=
  ⟨by rfl, by decide, by decide⟩

/-- Claim C2 as amended: in the retirement branch, after the asset and the
team each resolve to exactly one match, every Owns edge of the resolved
team on that asset gets its end time set to now — whether or not it
already had one — with its start time preserved; every other team's Owns
edge is left unchanged; and the scan records whether any other team's Owns
edge remains active (no end time): when one does, nothing else in the
store is touched. -/
theorem expireAsset_owns_update (s : Inventory) (p : AssetPayload) (now : Time)
    (a : AssetResp) (t : TeamResp)
    (ha : s.assetsQ p.assetType p.identifier = [a])
    (ht : s.teamsQ p.team.id = [t])
    (hnd : KeyedNoDup ownsKey s.owns) :
    ∃ s', expireAsset s p now = .ok s' ∧
      s'.owns = s.owns.map (fun o =>
        if o.assetID = a.id ∧ o.teamID = t.id then { o with endTime := some now }
        else o) ∧
      (activeOther s a.id t.id →
        s'.assets = s.assets ∧ s'.teams = s.teams ∧
          s'.parentOf = s.parentOf ∧ s'.nextID = s.nextID) := by
  simp only [expireAsset, ha, ht]
  rw [expire_loop_char s a.id t.id now hnd]
  by_cases hact : activeOther s a.id t.id
  · rw [decide_eq_true hact]
    exact ⟨_, rfl, rfl, fun _ => ⟨rfl, rfl, rfl, rfl⟩⟩
  · rw [decide_eq_false hact]
    have hamem : a ∈ s.assets :=
      List.mem_of_mem_filter (ha ▸ List.mem_cons_self a [])
    rcases hfind : s.assets.find? (fun b => b.id = a.id) with _ | a0
    · rw [List.find?_eq_none] at hfind
      exact absurd (by simp) (hfind a hamem)
    · simp only [Bool.false_eq_true, if_false, Inventory.updateAsset, hfind]
      refine ⟨_, rfl, ?_, fun hcontra => absurd hcontra hact⟩
      rw [foldl_expireParentStep_owns, foldl_expireParentStep_owns]

/-- Witness for the amended claim C2 at the concrete store
`cexOwnsEnded`. -/
theorem expireAsset_owns_updateW :
    ∃ s', expireAsset cexOwnsEnded cexPayload 10 = .ok s' ∧
      s'.owns = cexOwnsEnded.owns.map (fun o =>
        if o.assetID = 0 ∧ o.teamID = 1 then { o with endTime := some 10 }
        else o) ∧
      (activeOther cexOwnsEnded 0 1 →
        s'.assets = cexOwnsEnded.assets ∧ s'.teams = cexOwnsEnded.teams ∧
          s'.parentOf = cexOwnsEnded.parentOf ∧ s'.nextID = cexOwnsEnded.nextID) :=
  expireAsset_owns_update cexOwnsEnded cexPayload 10
    ⟨0, "Hostname", "h", 0, 0, Unexpired⟩ ⟨1, "team0", "Team 0"⟩
    (by rfl) (by rfl) (by decide)

theorem foldl_expireParentStep_char (now : Time) (s2 : Inventory)
    (todo : List ParentOfResp)
    (hnd : KeyedNoDup parentKey s2.parentOf)
    (htodo : KeyedNoDup parentKey todo)
    (hmem : ∀ e ∈ todo, e ∈ s2.parentOf) :
    todo.foldl (expireParentStep now) s2
      = { s2 with
          parentOf := s2.parentOf.map fun e =>
            if e ∈ todo ∧ now < e.expiration then
              { e with lastSeen := now, expiration := now }
            else e } := by
  rw [foldl_parentOf_lift todo s2 (expireParentStep now)
    (fun M e =>
      if e.expiration ≤ now then M
      else upsertBy parentKey (parentKey e)
        (fun x => { x with lastSeen := now, expiration := now })
        ⟨e.childID, e.parentID, now, now, now⟩ M)
    (by
      intro st e
      show _ = { st with
        parentOf := if e.expiration ≤ now then st.parentOf
          else upsertBy parentKey (parentKey e)
            (fun x => { x with lastSeen := now, expiration := now })
            ⟨e.childID, e.parentID, now, now, now⟩ st.parentOf }
      simp only [expireParentStep]
      by_cases h : e.expiration ≤ now
      · rw [if_pos h, if_pos h]
      · rw [if_neg h, if_neg h]
        rfl)]
  have hcongr : todo.foldl
      (fun M e =>
        if e.expiration ≤ now then M
        else upsertBy parentKey (parentKey e)
          (fun x => { x with lastSeen := now, expiration := now })
          ⟨e.childID, e.parentID, now, now, now⟩ M) s2.parentOf
    = todo.foldl
      (fun M e =>
        if (fun e => decide (now < e.expiration)) e = true then
          upsertBy parentKey (parentKey e)
            ((fun (_ : ParentOfResp) x =>
              { x with lastSeen := now, expiration := now }) e)
            ((fun e => (⟨e.childID, e.parentID, now, now, now⟩ : ParentOfResp)) e) M
        else M) s2.parentOf := by
    refine foldl_congr_mem ?_
    intro e he M
    by_cases h : e.expiration ≤ now
    · rw [if_pos h, if_neg (by simp [not_lt.mpr h])]
    · rw [if_neg h, if_pos (by simp [lt_of_not_le h])]
  rw [hcongr]
  rw [foldl_upsertBy_eq_map parentKey (fun e => decide (now < e.expiration))
    (fun (_ : ParentOfResp) x => { x with lastSeen := now, expiration := now })
    (fun e => (⟨e.childID, e.parentID, now, now, now⟩ : ParentOfResp))
    (fun x => { x with lastSeen := now, expiration := now })
    todo s2.parentOf
    (fun e _ _ => rfl)
    (fun e _ _ => rfl)
    htodo hnd hmem]
  refine congrArg (fun l => { s2 with parentOf := l }) ?_
  refine List.map_congr_left ?_
  intro x hx
  by_cases hc : x ∈ todo ∧ now < x.expiration
  · rw [if_pos ⟨hc.1, decide_eq_true hc.2⟩, if_pos hc]
  · rw [if_neg ?hn1, if_neg hc]
    case hn1 =>
      rintro ⟨h1, h2⟩
      exact hc ⟨h1, of_decide_eq_true h2⟩

theorem cascade_char (now : Time) (s2 : Inventory) (aid : Nat)
    (hnd : KeyedNoDup parentKey s2.parentOf) :
    (((s2.parentsQ aid).foldl (expireParentStep now) s2).childrenQ aid).foldl
        (expireParentStep now)
        ((s2.parentsQ aid).foldl (expireParentStep now) s2)
      = { s2 with
          parentOf := s2.parentOf.map fun e =>
            if (e.childID = aid ∨ e.parentID = aid) ∧ now < e.expiration then
              { e with lastSeen := now, expiration := now }
            else e } := by
  have h3 : (s2.parentsQ aid).foldl (expireParentStep now) s2
      = { s2 with
          parentOf := s2.parentOf.map fun e =>
            if e ∈ s2.parentsQ aid ∧ now < e.expiration then
              { e with lastSeen := now, expiration := now }
            else e } :=
    foldl_expireParentStep_char now s2 (s2.parentsQ aid) hnd
      (hnd.filter _) (fun e he => List.mem_of_mem_filter he)
  rw [h3]
  have hkeep : ∀ x ∈ s2.parentOf,
      parentKey ((fun e =>
        if e ∈ s2.parentsQ aid ∧ now < e.expiration then
          { e with lastSeen := now, expiration := now }
        else e) x) = parentKey x := by
    intro x hx
    show parentKey (if x ∈ s2.parentsQ aid ∧ now < x.expiration then
      { x with lastSeen := now, expiration := now } else x) = parentKey x
    by_cases hc : x ∈ s2.parentsQ aid ∧ now < x.expiration
    · rw [if_pos hc]
      rfl
    · rw [if_neg hc]
  have hnd1 : KeyedNoDup parentKey (s2.parentOf.map fun e =>
      if e ∈ s2.parentsQ aid ∧ now < e.expiration then
        { e with lastSeen := now, expiration := now }
      else e) :=
    hnd.map_of_key_preserved _ hkeep
  simp only [Inventory.childrenQ]
  rw [foldl_expireParentStep_char now
    { s2 with
      parentOf := s2.parentOf.map fun e =>
        if e ∈ s2.parentsQ aid ∧ now < e.expiration then
          { e with lastSeen := now, expiration := now }
        else e }
    _ hnd1 (hnd1.filter _) (fun e he => List.mem_of_mem_filter he)]
  refine congrArg (fun l => { s2 with parentOf := l }) ?_
  rw [List.map_map]
  refine List.map_congr_left ?_
  intro x hx
  simp only [Function.comp_apply]
  split_ifs with h1 h2 h3 h4 h5 h6 h7
  · rfl
  · exact absurd h2.2 (lt_irrefl now)
  · rfl
  · refine absurd ?_ h4
    have hchild : x.childID = aid := by
      have hm := h1.1
      rw [Inventory.parentsQ, List.mem_filter] at hm
      simpa using hm.2
    exact ⟨Or.inl hchild, h1.2⟩
  · rfl
  · refine absurd ?_ h6
    have hpar : x.parentID = aid := by
      have hm := h5.1
      rw [List.mem_filter] at hm
      simpa using hm.2
    exact ⟨Or.inr hpar, h5.2⟩
  · exfalso
    rcases h7 with ⟨hor, hl⟩
    rcases hor with hch | hpar
    · refine h1 ⟨?_, hl⟩
      rw [Inventory.parentsQ, List.mem_filter]
      exact ⟨hx, by simpa using hch⟩
    · refine h5 ⟨?_, hl⟩
      rw [List.mem_filter]
      refine ⟨List.mem_map.mpr ⟨x, hx, if_neg h1⟩, by simpa using hpar⟩
  · rfl

/-- Claim C3: in the retirement branch, when no other team's Owns edge
remains active, the asset's last-seen and expiration are set to now, and
every ParentOf edge in which the asset is the child or the parent whose
expiration is strictly after now gets its last-seen and expiration set to
now, while every ParentOf edge whose expiration is at or before now (and
every edge not touching the asset) is left untouched. -/
theorem expireAsset_cascade (s : Inventory) (p : AssetPayload) (now : Time)
    (a : AssetResp) (t : TeamResp)
    (ha : s.assetsQ p.assetType p.identifier = [a])
    (ht : s.teamsQ p.team.id = [t])
    (hact : ¬ activeOther s a.id t.id)
    (hand : KeyedNoDup (fun x : AssetResp => x.id) s.assets)
    (hond : KeyedNoDup ownsKey s.owns)
    (hpnd : KeyedNoDup parentKey s.parentOf) :
    ∃ s', expireAsset s p now = .ok s' ∧
      s'.assets = s.assets.map (fun b =>
        if b.id = a.id then
          { b with
            typ := p.assetType, identifier := p.identifier,
            lastSeen := now, expiration := now }
        else b) ∧
      s'.parentOf = s.parentOf.map (fun e =>
        if (e.childID = a.id ∨ e.parentID = a.id) ∧ now < e.expiration then
          { e with lastSeen := now, expiration := now }
        else e) := by
  simp only [expireAsset, ha, ht]
  rw [expire_loop_char s a.id t.id now hond]
  rw [decide_eq_false hact]
  have hamem : a ∈ s.assets :=
    List.mem_of_mem_filter (ha ▸ List.mem_cons_self a [])
  have hfind : s.assets.find? (fun b => b.id = a.id) = some a :=
    @find?_key_eq _ _ _ (fun x : AssetResp => x.id) _ hand _ hamem
  simp only [Bool.false_eq_true, if_false, Inventory.updateAsset, hfind]
  refine ⟨_, rfl, ?_, ?_⟩
  · rw [foldl_expireParentStep_assets, foldl_expireParentStep_assets]
  · rw [cascade_char now _ a.id (by exact hpnd)]

/-- Witness for claim C3: retiring the only owner of an asset with one
outgoing ParentOf edge (to a cloud account, unexpired) and one incoming
ParentOf edge already expired at 3; at now = 10 the asset and the live
edge are expired, the already-expired edge is untouched. -/
theorem expireAsset_cascadeW :
    ∃ s', expireAsset
        ⟨8, [⟨0, "Hostname", "h", 0, 0, Unexpired⟩], [⟨1, "team0", "Team 0"⟩],
          [⟨0, 1, 1, none⟩], [⟨0, 5, 0, 0, Unexpired⟩, ⟨7, 0, 0, 0, 3⟩]⟩
        cexPayload 10 = .ok s' ∧
      s'.assets = [⟨0, "Hostname", "h", 0, 0, Unexpired⟩].map (fun b =>
        if b.id = 0 then
          { b with
            typ := "Hostname", identifier := "h",
            lastSeen := 10, expiration := 10 }
        else b) ∧
      s'.parentOf = [⟨0, 5, 0, 0, Unexpired⟩, ⟨7, 0, 0, 0, 3⟩].map
        (fun e : ParentOfResp =>
          if (e.childID = 0 ∨ e.parentID = 0) ∧ 10 < e.expiration then
            { e with lastSeen := 10, expiration := 10 }
          else e) :=
  expireAsset_cascade
    ⟨8, [⟨0, "Hostname", "h", 0, 0, Unexpired⟩], [⟨1, "team0", "Team 0"⟩],
      [⟨0, 1, 1, none⟩], [⟨0, 5, 0, 0, Unexpired⟩, ⟨7, 0, 0, 0, 3⟩]⟩
    cexPayload 10 ⟨0, "Hostname", "h", 0, 0, Unexpired⟩ ⟨1, "team0", "Team 0"⟩
    (by rfl) (by rfl) (by decide) (by decide) (by decide) (by decide)

/-! ### Claim C9: idempotence of the upsert branch -/

theorem mem_assetsQ {s : Inventory} {typ identifier : String} {a : AssetResp} :
    a ∈ s.assetsQ typ identifier ↔
      a ∈ s.assets ∧ a.typ = typ ∧ a.identifier = identifier := by
  rw [Inventory.assetsQ, List.mem_filter]
  simp

theorem mem_teamsQ {s : Inventory} {identifier : String} {t : TeamResp} :
    t ∈ s.teamsQ identifier ↔ t ∈ s.teams ∧ t.identifier = identifier := by
  rw [Inventory.teamsQ, List.mem_filter]
  simp

theorem filter_map_comm {α : Type} (l : List α) (g : α → α) (p : α → Bool)
    (h : ∀ b ∈ l, p (g b) = p b) :
    (l.map g).filter p = (l.filter p).map g := by
  rw [List.filter_map]
  refine congrArg (List.map g) ?_
  refine List.filter_congr ?_
  intro b hb
  exact h b hb

theorem map_eq_self {α : Type} (l : List α) (g : α → α)
    (h : ∀ b ∈ l, g b = b) : l.map g = l := by
  induction l with
  | nil => rfl
  | cons b t ih =>
    rw [List.map_cons, h b (List.mem_cons_self b t),
      ih fun x hx => h x (List.mem_cons_of_mem b hx)]

/-- A successful `upsertAsset` on a state that already satisfies the
normalized-asset condition for its (type, identifier) pair changes
nothing: it finds the unique match and rewrites its fields with their
current values. -/
theorem upsertAsset_id (s : Inventory) (p : AssetPayload) (now : Time)
    (A : AssetResp)
    (hids : KeyedNoDup (fun x : AssetResp => x.id) s.assets)
    (hNA : NormAsset s p.assetType p.identifier now A) :
    upsertAsset s p now = .ok (A, s) := by
  obtain ⟨hq, hls, hexp⟩ := hNA
  have hmemQ : A ∈ s.assetsQ p.assetType p.identifier :=
    hq ▸ List.mem_cons_self A []
  obtain ⟨hmem, htyp, hident⟩ := mem_assetsQ.mp hmemQ
  have hfind : s.assets.find? (fun b => b.id = A.id) = some A :=
    @find?_key_eq _ _ _ (fun x : AssetResp => x.id) _ hids _ hmem
  simp only [upsertAsset, hq, Inventory.updateAsset, hfind]
  have hA' : ({ A with
      typ := p.assetType, identifier := p.identifier,
      lastSeen := now, expiration := Unexpired } : AssetResp) = A := by
    rw [← htyp, ← hident, ← hls, ← hexp]
  have hmap : (s.assets.map fun b =>
      if b.id = A.id then
        { b with
          typ := p.assetType, identifier := p.identifier,
          lastSeen := now, expiration := Unexpired }
      else b) = s.assets := by
    refine map_eq_self _ _ ?_
    intro b hb
    by_cases hbid : b.id = A.id
    · have hbA : b = A := hids.eq_of_key_eq hb hmem hbid
      rw [if_pos hbid, hbA, hA']
    · rw [if_neg hbid]
  rw [hA', hmap]

/-- A successful `upsertTeam` on a state that already satisfies the
normalized-team condition for its identifier changes nothing. -/
theorem upsertTeam_id (s : Inventory) (p : AssetPayload) (T : TeamResp)
    (hids : KeyedNoDup (fun t : TeamResp => t.id) s.teams)
    (hNT : NormTeam s p.team.id p.team.name T) :
    upsertTeam s p = .ok (T, s) := by
  obtain ⟨hq, hname⟩ := hNT
  have hmemQ : T ∈ s.teamsQ p.team.id := hq ▸ List.mem_cons_self T []
  obtain ⟨hmem, hident⟩ := mem_teamsQ.mp hmemQ
  have hfind : s.teams.find? (fun u => u.id = T.id) = some T :=
    @find?_key_eq _ _ _ (fun t : TeamResp => t.id) _ hids _ hmem
  simp only [upsertTeam, hq, Inventory.updateTeam, hfind]
  have hT' : ({ T with identifier := p.team.id, name := p.team.name } : TeamResp)
      = T := by
    rw [← hident, ← hname]
  have hmap : (s.teams.map fun u =>
      if u.id = T.id then { u with identifier := p.team.id, name := p.team.name }
      else u) = s.teams := by
    refine map_eq_self _ _ ?_
    intro u hu
    by_cases huid : u.id = T.id
    · have huT : u = T := hids.eq_of_key_eq hu hmem huid
      rw [if_pos huid, huT, hT']
    · rw [if_neg huid]
  rw [hT', hmap]

/-- Postcondition of a successful `upsertAsset`: the store is again
well-formed, the touched (type, identifier) pair now resolves uniquely to
the returned asset with refreshed time attributes, queries for every other
pair are unchanged, the other entity kinds are untouched, and on a state
that already satisfied the normalized condition nothing changed at all. -/
theorem upsertAsset_post (s : Inventory) (p : AssetPayload) (now : Time)
    (A : AssetResp) (s1 : Inventory) (hwf : s.WF)
    (hok : upsertAsset s p now = .ok (A, s1)) :
    s1.WF ∧ NormAsset s1 p.assetType p.identifier now A ∧
    (∀ τ ι, ¬(τ = p.assetType ∧ ι = p.identifier) →
      s1.assetsQ τ ι = s.assetsQ τ ι) ∧
    s1.teams = s.teams ∧ s1.owns = s.owns ∧ s1.parentOf = s.parentOf ∧
    (∀ A0, NormAsset s p.assetType p.identifier now A0 → A = A0 ∧ s1 = s) := by
  obtain ⟨hids, hbound, htids, htbound⟩ := hwf
  rcases hq : s.assetsQ p.assetType p.identifier with _ | ⟨a0, _ | ⟨b0, rest2⟩⟩
  · simp only [upsertAsset, hq, Inventory.createAsset] at hok
    injection hok with h
    injection h with h1 h2
    subst h1
    subst h2
    refine ⟨⟨?_, ?_, htids, ?_⟩, ⟨?_, rfl, rfl⟩, ?_, rfl, rfl, rfl, ?_⟩
    · rw [KeyedNoDup, List.pairwise_append]
      refine ⟨hids, List.pairwise_singleton _ _, ?_⟩
      intro x hx y hy
      rw [List.mem_singleton] at hy
      subst hy
      exact Nat.ne_of_lt (hbound x hx)
    · intro x hx
      rcases List.mem_append.mp hx with h | h
      · exact Nat.lt_trans (hbound x h) (Nat.lt_succ_self _)
      · rw [List.mem_singleton] at h
        subst h
        exact Nat.lt_succ_self _
    · intro x hx
      exact Nat.lt_trans (htbound x hx) (Nat.lt_succ_self _)
    · show (s.assets ++ _).filter _ = _
      rw [List.filter_append]
      have h0 : s.assets.filter
          (fun a => a.typ = p.assetType ∧ a.identifier = p.identifier) = [] := hq
      rw [h0]
      simp
    · intro τ ι hn
      show (s.assets ++ _).filter _ = _
      rw [List.filter_append]
      have h1 : List.filter (fun a => decide (a.typ = τ ∧ a.identifier = ι))
          [(⟨s.nextID, p.assetType, p.identifier, now, now, Unexpired⟩ : AssetResp)]
          = [] := by
        rw [List.filter_cons]
        have : ¬(p.assetType = τ ∧ p.identifier = ι) :=
          fun hcontra => hn ⟨hcontra.1.symm, hcontra.2.symm⟩
        simp [this]
      rw [h1, List.append_nil]
      rfl
    · intro A0 hNA0
      obtain ⟨hq0, _, _⟩ := hNA0
      rw [hq] at hq0
      exact List.noConfusion hq0
  · have hmemQ : a0 ∈ s.assetsQ p.assetType p.identifier :=
      hq ▸ List.mem_cons_self a0 []
    obtain ⟨hmem0, htyp0, hident0⟩ := mem_assetsQ.mp hmemQ
    have hfind : s.assets.find? (fun b => b.id = a0.id) = some a0 :=
      @find?_key_eq _ _ _ (fun x : AssetResp => x.id) _ hids _ hmem0
    simp only [upsertAsset, hq, Inventory.updateAsset, hfind] at hok
    injection hok with h
    injection h with h1 h2
    subst h1
    subst h2
    have hkeep : ∀ b ∈ s.assets,
        (if b.id = a0.id then
          ({ b with
            typ := p.assetType, identifier := p.identifier,
            lastSeen := now, expiration := Unexpired } : AssetResp)
         else b).id = b.id := by
      intro b hb
      by_cases hbid : b.id = a0.id
      · rw [if_pos hbid]
      · rw [if_neg hbid]
    have hpredg : ∀ b ∈ s.assets,
        decide ((if b.id = a0.id then
            ({ b with
              typ := p.assetType, identifier := p.identifier,
              lastSeen := now, expiration := Unexpired } : AssetResp)
          else b).typ = p.assetType ∧
          (if b.id = a0.id then
            ({ b with
              typ := p.assetType, identifier := p.identifier,
              lastSeen := now, expiration := Unexpired } : AssetResp)
          else b).identifier = p.identifier)
        = decide (b.typ = p.assetType ∧ b.identifier = p.identifier) := by
      intro b hb
      by_cases hbid : b.id = a0.id
      · have hba : b = a0 := hids.eq_of_key_eq hb hmem0 hbid
        rw [if_pos hbid]
        subst hba
        simp [htyp0, hident0]
      · rw [if_neg hbid]
    refine ⟨⟨?_, ?_, htids, htbound⟩, ⟨?_, rfl, rfl⟩, ?_, rfl, rfl, rfl, ?_⟩
    · exact hids.map_of_key_preserved _ hkeep
    · intro x hx
      obtain ⟨b, hb, rfl⟩ := List.mem_map.mp hx
      rw [hkeep b hb]
      exact hbound b hb
    · show (s.assets.map _).filter _ = _
      rw [filter_map_comm _ _ _ hpredg]
      have h0 : s.assets.filter
          (fun a => a.typ = p.assetType ∧ a.identifier = p.identifier) = [a0] := hq
      rw [h0, List.map_cons, List.map_nil, if_pos rfl]
    · intro τ ι hn
      show (s.assets.map _).filter _ = _
      have hpredg' : ∀ b ∈ s.assets,
          decide ((if b.id = a0.id then
              ({ b with
                typ := p.assetType, identifier := p.identifier,
                lastSeen := now, expiration := Unexpired } : AssetResp)
            else b).typ = τ ∧
            (if b.id = a0.id then
              ({ b with
                typ := p.assetType, identifier := p.identifier,
                lastSeen := now, expiration := Unexpired } : AssetResp)
            else b).identifier = ι)
          = decide (b.typ = τ ∧ b.identifier = ι) := by
        intro b hb
        by_cases hbid : b.id = a0.id
        · have hba : b = a0 := hids.eq_of_key_eq hb hmem0 hbid
          rw [if_pos hbid]
          subst hba
          have hx1 : ¬(p.assetType = τ ∧ p.identifier = ι) :=
            fun hcontra => hn ⟨hcontra.1.symm, hcontra.2.symm⟩
          have hx2 : ¬(b.typ = τ ∧ b.identifier = ι) := by
            rw [htyp0, hident0]
            exact hx1
          simp [hx1, hx2]
        · rw [if_neg hbid]
      rw [filter_map_comm _ _ _ hpredg']
      refine map_eq_self _ _ ?_
      intro b hb
      have hbl := List.mem_of_mem_filter hb
      have hpb := (List.mem_filter.mp hb).2
      have hbne : b.id ≠ a0.id := by
        intro hbid
        have hba : b = a0 := hids.eq_of_key_eq hbl hmem0 hbid
        subst hba
        rw [decide_eq_true_eq] at hpb
        refine hn ⟨?_, ?_⟩
        · rw [← hpb.1, htyp0]
        · rw [← hpb.2, hident0]
      rw [if_neg hbne]
    · intro A0 hNA0
      obtain ⟨hq0, hls0, hexp0⟩ := hNA0
      rw [hq] at hq0
      have ha0A0 : a0 = A0 := by
        injection hq0
      subst ha0A0
      have hA' : ({ a0 with
          typ := p.assetType, identifier := p.identifier,
          lastSeen := now, expiration := Unexpired } : AssetResp) = a0 := by
        rw [← htyp0, ← hident0, ← hls0, ← hexp0]
      refine ⟨hA', ?_⟩
      have hmap : (s.assets.map fun b =>
          if b.id = a0.id then
            { b with
              typ := p.assetType, identifier := p.identifier,
              lastSeen := now, expiration := Unexpired }
          else b) = s.assets := by
        refine map_eq_self _ _ ?_
        intro b hb
        by_cases hbid : b.id = a0.id
        · have hba : b = a0 := hids.eq_of_key_eq hb hmem0 hbid
          rw [if_pos hbid, hba, hA']
        · rw [if_neg hbid]
      rw [hmap]
  · simp only [upsertAsset, hq] at hok
    exact Except.noConfusion hok

/-- Postcondition of a successful `upsertTeam`: the store is again
well-formed, the team identifier resolves uniquely to the returned team
carrying the payload's name, and nothing else is touched. -/
theorem upsertTeam_post (s : Inventory) (p : AssetPayload)
    (T : TeamResp) (s1 : Inventory) (hwf : s.WF)
    (hok : upsertTeam s p = .ok (T, s1)) :
    s1.WF ∧ NormTeam s1 p.team.id p.team.name T ∧
    s1.assets = s.assets ∧ s1.owns = s.owns ∧ s1.parentOf = s.parentOf := by
  obtain ⟨hids, hbound, htids, htbound⟩ := hwf
  rcases hq : s.teamsQ p.team.id with _ | ⟨t0, _ | ⟨u0, rest2⟩⟩
  · simp only [upsertTeam, hq, Inventory.createTeam] at hok
    injection hok with h
    injection h with h1 h2
    subst h1
    subst h2
    refine ⟨⟨hids, ?_, ?_, ?_⟩, ⟨?_, rfl⟩, rfl, rfl, rfl⟩
    · intro x hx
      exact Nat.lt_trans (hbound x hx) (Nat.lt_succ_self _)
    · rw [KeyedNoDup, List.pairwise_append]
      refine ⟨htids, List.pairwise_singleton _ _, ?_⟩
      intro x hx y hy
      rw [List.mem_singleton] at hy
      subst hy
      exact Nat.ne_of_lt (htbound x hx)
    · intro x hx
      rcases List.mem_append.mp hx with h | h
      · exact Nat.lt_trans (htbound x h) (Nat.lt_succ_self _)
      · rw [List.mem_singleton] at h
        subst h
        exact Nat.lt_succ_self _
    · show (s.teams ++ _).filter _ = _
      rw [List.filter_append]
      have h0 : s.teams.filter (fun t => t.identifier = p.team.id) = [] := hq
      rw [h0]
      simp
  · have hmemQ : t0 ∈ s.teamsQ p.team.id := hq ▸ List.mem_cons_self t0 []
    obtain ⟨hmem0, hident0⟩ := mem_teamsQ.mp hmemQ
    have hfind : s.teams.find? (fun u => u.id = t0.id) = some t0 :=
      @find?_key_eq _ _ _ (fun t : TeamResp => t.id) _ htids _ hmem0
    simp only [upsertTeam, hq, Inventory.updateTeam, hfind] at hok
    injection hok with h
    injection h with h1 h2
    subst h1
    subst h2
    have hkeep : ∀ u ∈ s.teams,
        (if u.id = t0.id then
          ({ u with identifier := p.team.id, name := p.team.name } : TeamResp)
         else u).id = u.id := by
      intro u hu
      by_cases huid : u.id = t0.id
      · rw [if_pos huid]
      · rw [if_neg huid]
    have hpredg : ∀ u ∈ s.teams,
        decide ((if u.id = t0.id then
            ({ u with identifier := p.team.id, name := p.team.name } : TeamResp)
          else u).identifier = p.team.id)
        = decide (u.identifier = p.team.id) := by
      intro u hu
      by_cases huid : u.id = t0.id
      · have hut : u = t0 := htids.eq_of_key_eq hu hmem0 huid
        rw [if_pos huid]
        subst hut
        simp [hident0]
      · rw [if_neg huid]
    refine ⟨⟨hids, hbound, ?_, ?_⟩, ⟨?_, rfl⟩, rfl, rfl, rfl⟩
    · exact htids.map_of_key_preserved _ hkeep
    · intro x hx
      obtain ⟨u, hu, rfl⟩ := List.mem_map.mp hx
      rw [hkeep u hu]
      exact htbound u hu
    · show (s.teams.map _).filter _ = _
      rw [filter_map_comm _ _ _ hpredg]
      have h0 : s.teams.filter (fun t => t.identifier = p.team.id) = [t0] := hq
      rw [h0, List.map_cons, List.map_nil, if_pos rfl]
  · simp only [upsertTeam, hq] at hok
    exact Except.noConfusion hok

theorem ownsKey_eq_iff {o : OwnsResp} {aid tid : Nat} :
    ownsKey o = (aid, tid) ↔ o.assetID = aid ∧ o.teamID = tid := by
  rw [ownsKey, Prod.mk.injEq]

theorem parentKey_eq_iff {e : ParentOfResp} {c d : Nat} :
    parentKey e = (c, d) ↔ e.childID = c ∧ e.parentID = d := by
  rw [parentKey, Prod.mk.injEq]

theorem setOwner_fields (s : Inventory) (A : AssetResp) (T : TeamResp) (now : Time) :
    (setOwner s A T now).assets = s.assets ∧ (setOwner s A T now).teams = s.teams ∧
    (setOwner s A T now).parentOf = s.parentOf ∧
    (setOwner s A T now).nextID = s.nextID :=
  ⟨rfl, rfl, rfl, rfl⟩

theorem setOwner_norm (s : Inventory) (A : AssetResp) (T : TeamResp) (now : Time) :
    NormOwns (setOwner s A T now) A.id T.id := by
  rcases hfind : (s.owners A.id).find? (fun o => o.teamID = T.id) with _ | o0
  · have habs : ¬ ∃ x ∈ s.owns, ownsKey x = (A.id, T.id) := by
      rintro ⟨x, hx, hk⟩
      obtain ⟨hxa, hxt⟩ := ownsKey_eq_iff.mp hk
      rw [List.find?_eq_none] at hfind
      refine hfind x ?_ (by simpa using hxt)
      rw [Inventory.owners, List.mem_filter]
      exact ⟨hx, by simpa using hxa⟩
    have howns : (setOwner s A T now).owns =
        s.owns ++ [⟨A.id, T.id, now, none⟩] := by
      simp only [setOwner, hfind, Inventory.upsertOwner]
      rw [upsertBy_absent habs]
    refine ⟨now, ?_, ?_⟩
    · rw [howns]
      exact List.mem_append.mpr (Or.inr (List.mem_singleton.mpr rfl))
    · intro o ho hcond
      rw [howns] at ho
      rcases List.mem_append.mp ho with h | h
      · exact absurd ⟨o, h, ownsKey_eq_iff.mpr hcond⟩ habs
      · exact List.mem_singleton.mp h
  · have ht0 : o0.teamID = T.id := by
      have := List.find?_some hfind
      simpa using this
    have hmemf := List.mem_of_find?_eq_some hfind
    rw [Inventory.owners, List.mem_filter] at hmemf
    obtain ⟨hmem0, ha0d⟩ := hmemf
    have ha0 : o0.assetID = A.id := by simpa using ha0d
    have hpres : ∃ x ∈ s.owns, ownsKey x = (A.id, T.id) :=
      ⟨o0, hmem0, ownsKey_eq_iff.mpr ⟨ha0, ht0⟩⟩
    have howns : (setOwner s A T now).owns =
        s.owns.map fun x =>
          if ownsKey x = (A.id, T.id) then
            { x with startTime := o0.startTime, endTime := none }
          else x := by
      simp only [setOwner, hfind, Inventory.upsertOwner]
      rw [upsertBy_present hpres]
    refine ⟨o0.startTime, ?_, ?_⟩
    · rw [howns]
      refine List.mem_map.mpr ⟨o0, hmem0, ?_⟩
      rw [if_pos (ownsKey_eq_iff.mpr ⟨ha0, ht0⟩), ← ha0, ← ht0]
    · intro o ho hcond
      rw [howns] at ho
      obtain ⟨x, hx, rfl⟩ := List.mem_map.mp ho
      by_cases hk : ownsKey x = (A.id, T.id)
      · obtain ⟨hxa, hxt⟩ := ownsKey_eq_iff.mp hk
        rw [if_pos hk, ← hxa, ← hxt]
      · rw [if_neg hk] at hcond ⊢
        exact absurd (ownsKey_eq_iff.mpr hcond) hk

theorem setOwner_id (s : Inventory) (A : AssetResp) (T : TeamResp) (now : Time)
    (hNO : NormOwns s A.id T.id) : setOwner s A T now = s := by
  obtain ⟨st, hmem, hall⟩ := hNO
  have hmemf : (⟨A.id, T.id, st, none⟩ : OwnsResp) ∈ s.owners A.id := by
    rw [Inventory.owners, List.mem_filter]
    exact ⟨hmem, by simp⟩
  rcases hfind : (s.owners A.id).find? (fun o => o.teamID = T.id) with _ | o0
  · rw [List.find?_eq_none] at hfind
    exact absurd (by simp) (hfind _ hmemf)
  · have ht0 : o0.teamID = T.id := by simpa using List.find?_some hfind
    have hmf := List.mem_of_find?_eq_some hfind
    rw [Inventory.owners, List.mem_filter] at hmf
    obtain ⟨hmem0, ha0d⟩ := hmf
    have ha0 : o0.assetID = A.id := by simpa using ha0d
    have ho0 : o0 = ⟨A.id, T.id, st, none⟩ := hall o0 hmem0 ⟨ha0, ht0⟩
    have hpres : ∃ x ∈ s.owns, ownsKey x = (A.id, T.id) :=
      ⟨o0, hmem0, ownsKey_eq_iff.mpr ⟨ha0, ht0⟩⟩
    have hstate : setOwner s A T now =
        { s with owns := s.owns.map fun x =>
            if ownsKey x = (A.id, T.id) then
              { x with startTime := o0.startTime, endTime := none }
            else x } := by
      simp only [setOwner, hfind, Inventory.upsertOwner]
      rw [upsertBy_present hpres]
    have hmap : (s.owns.map fun x =>
        if ownsKey x = (A.id, T.id) then
          { x with startTime := o0.startTime, endTime := none }
        else x) = s.owns := by
      apply map_eq_self
      intro x hx
      by_cases hk : ownsKey x = (A.id, T.id)
      · have hx0 : x = ⟨A.id, T.id, st, none⟩ := hall x hx (ownsKey_eq_iff.mp hk)
        have hst : o0.startTime = st := by rw [ho0]
        rw [if_pos hk, hx0, hst]
      · rw [if_neg hk]
    rw [hstate, hmap]

theorem setOwner_reuse (s : Inventory) (A : AssetResp) (T : TeamResp) (now : Time)
    (hnd : KeyedNoDup ownsKey s.owns)
    (hex : ∃ o ∈ s.owns, o.assetID = A.id ∧ o.teamID = T.id) :
    (setOwner s A T now).owns = s.owns.map fun o =>
      if o.assetID = A.id ∧ o.teamID = T.id then { o with endTime := none }
      else o := by
  obtain ⟨e, he, hea, het⟩ := hex
  have hmemf : e ∈ s.owners A.id := by
    rw [Inventory.owners, List.mem_filter]
    exact ⟨he, by simpa using hea⟩
  rcases hfind : (s.owners A.id).find? (fun o => o.teamID = T.id) with _ | o0
  · rw [List.find?_eq_none] at hfind
    exact absurd (by simpa using het) (hfind e hmemf)
  · have ht0 : o0.teamID = T.id := by simpa using List.find?_some hfind
    have hmf := List.mem_of_find?_eq_some hfind
    rw [Inventory.owners, List.mem_filter] at hmf
    obtain ⟨hmem0, ha0d⟩ := hmf
    have ha0 : o0.assetID = A.id := by simpa using ha0d
    have hpres : ∃ x ∈ s.owns, ownsKey x = (A.id, T.id) :=
      ⟨o0, hmem0, ownsKey_eq_iff.mpr ⟨ha0, ht0⟩⟩
    have howns : (setOwner s A T now).owns = s.owns.map fun x =>
        if ownsKey x = (A.id, T.id) then
          { x with startTime := o0.startTime, endTime := none }
        else x := by
      simp only [setOwner, hfind, Inventory.upsertOwner]
      rw [upsertBy_present hpres]
    rw [howns]
    apply List.map_congr_left
    intro x hx
    by_cases hk : x.assetID = A.id ∧ x.teamID = T.id
    · have hxo : x = o0 := hnd.eq_of_key_eq hx hmem0
        ((ownsKey_eq_iff.mpr hk).trans (ownsKey_eq_iff.mpr ⟨ha0, ht0⟩).symm)
      rw [if_pos (ownsKey_eq_iff.mpr hk), if_pos hk, hxo]
    · rw [if_neg (fun hc => hk (ownsKey_eq_iff.mp hc)), if_neg hk]

theorem upsertParent_fields (s : Inventory) (c d : Nat) (ts exp : Time) :
    ((s.upsertParent c d ts exp).2).assets = s.assets ∧
    ((s.upsertParent c d ts exp).2).teams = s.teams ∧
    ((s.upsertParent c d ts exp).2).owns = s.owns ∧
    ((s.upsertParent c d ts exp).2).nextID = s.nextID :=
  ⟨rfl, rfl, rfl, rfl⟩

theorem upsertParent_norm (s : Inventory) (c d : Nat) (now : Time) :
    NormParent (s.upsertParent c d now Unexpired).2 c d now := by
  by_cases hex : ∃ x ∈ s.parentOf, parentKey x = (c, d)
  · have hpo : ((s.upsertParent c d now Unexpired).2).parentOf =
        s.parentOf.map fun x =>
          if parentKey x = (c, d) then
            { x with lastSeen := now, expiration := Unexpired }
          else x := by
      simp only [Inventory.upsertParent]
      rw [upsertBy_present hex]
    refine ⟨?_, ?_⟩
    · obtain ⟨e, he, hk⟩ := hex
      obtain ⟨hec, hed⟩ := parentKey_eq_iff.mp hk
      rw [hpo]
      exact ⟨{ e with lastSeen := now, expiration := Unexpired },
        List.mem_map.mpr ⟨e, he, by rw [if_pos hk]⟩, hec, hed⟩
    · intro x' hx' hk'
      rw [hpo] at hx'
      obtain ⟨x, hx, rfl⟩ := List.mem_map.mp hx'
      by_cases hk : parentKey x = (c, d)
      · rw [if_pos hk]
        exact ⟨rfl, rfl⟩
      · rw [if_neg hk] at hk' ⊢
        exact absurd (parentKey_eq_iff.mpr hk') hk
  · have hpo : ((s.upsertParent c d now Unexpired).2).parentOf =
        s.parentOf ++ [⟨c, d, now, now, Unexpired⟩] := by
      simp only [Inventory.upsertParent]
      rw [upsertBy_absent hex]
    refine ⟨?_, ?_⟩
    · rw [hpo]
      exact ⟨⟨c, d, now, now, Unexpired⟩,
        List.mem_append.mpr (Or.inr (List.mem_singleton.mpr rfl)), rfl, rfl⟩
    · intro x hx hk'
      rw [hpo] at hx
      rcases List.mem_append.mp hx with h | h
      · exact absurd ⟨x, h, parentKey_eq_iff.mpr hk'⟩ hex
      · obtain rfl := List.mem_singleton.mp h
        exact ⟨rfl, rfl⟩

theorem upsertParent_presNP (s : Inventory) (c d c' d' : Nat) (now : Time)
    (hNP : NormParent s c' d' now) :
    NormParent (s.upsertParent c d now Unexpired).2 c' d' now := by
  by_cases hsame : c' = c ∧ d' = d
  · obtain ⟨h1, h2⟩ := hsame
    subst h1
    subst h2
    exact upsertParent_norm s c' d' now
  · obtain ⟨⟨e, he, hec, hed⟩, hall⟩ := hNP
    by_cases hex : ∃ x ∈ s.parentOf, parentKey x = (c, d)
    · have hpo : ((s.upsertParent c d now Unexpired).2).parentOf =
          s.parentOf.map fun x =>
            if parentKey x = (c, d) then
              { x with lastSeen := now, expiration := Unexpired }
            else x := by
        simp only [Inventory.upsertParent]
        rw [upsertBy_present hex]
      refine ⟨?_, ?_⟩
      · rw [hpo]
        refine ⟨e, List.mem_map.mpr ⟨e, he, ?_⟩, hec, hed⟩
        rw [if_neg]
        intro hk
        obtain ⟨h1, h2⟩ := parentKey_eq_iff.mp hk
        exact hsame ⟨hec.symm.trans h1, hed.symm.trans h2⟩
      · intro x' hx' hk'
        rw [hpo] at hx'
        obtain ⟨x, hx, rfl⟩ := List.mem_map.mp hx'
        by_cases hk : parentKey x = (c, d)
        · rw [if_pos hk] at hk' ⊢
          obtain ⟨h1, h2⟩ := parentKey_eq_iff.mp hk
          have hx1 : x.childID = c' := hk'.1
          have hx2 : x.parentID = d' := hk'.2
          exact absurd ⟨hx1.symm.trans h1, hx2.symm.trans h2⟩ hsame
        · rw [if_neg hk] at hk' ⊢
          exact hall x hx hk'
    · have hpo : ((s.upsertParent c d now Unexpired).2).parentOf =
          s.parentOf ++ [⟨c, d, now, now, Unexpired⟩] := by
        simp only [Inventory.upsertParent]
        rw [upsertBy_absent hex]
      refine ⟨?_, ?_⟩
      · rw [hpo]
        exact ⟨e, List.mem_append.mpr (Or.inl he), hec, hed⟩
      · intro x hx hk'
        rw [hpo] at hx
        rcases List.mem_append.mp hx with h | h
        · exact hall x h hk'
        · obtain rfl := List.mem_singleton.mp h
          exact ⟨rfl, rfl⟩

theorem upsertParent_id (s : Inventory) (c d : Nat) (now : Time)
    (hNP : NormParent s c d now) :
    (s.upsertParent c d now Unexpired).2 = s := by
  obtain ⟨⟨e, he, hec, hed⟩, hall⟩ := hNP
  have hex : ∃ x ∈ s.parentOf, parentKey x = (c, d) :=
    ⟨e, he, parentKey_eq_iff.mpr ⟨hec, hed⟩⟩
  have hstate : (s.upsertParent c d now Unexpired).2 =
      { s with parentOf := s.parentOf.map fun x =>
          if parentKey x = (c, d) then
            { x with lastSeen := now, expiration := Unexpired }
          else x } := by
    simp only [Inventory.upsertParent]
    rw [upsertBy_present hex]
  have hmap : (s.parentOf.map fun x =>
      if parentKey x = (c, d) then
        { x with lastSeen := now, expiration := Unexpired }
      else x) = s.parentOf := by
    apply map_eq_self
    intro x hx
    by_cases hk : parentKey x = (c, d)
    · obtain ⟨hls, hexp⟩ := hall x hx (parentKey_eq_iff.mp hk)
      rw [if_pos hk, ← hls, ← hexp]
    · rw [if_neg hk]
  rw [hstate, hmap]

theorem WF_of_frame {s s' : Inventory} (ha : s'.assets = s.assets)
    (ht : s'.teams = s.teams) (hn : s'.nextID = s.nextID) (hwf : s.WF) :
    s'.WF := by
  unfold Inventory.WF at hwf ⊢
  rw [ha, ht, hn]
  exact hwf

theorem assetsQ_eq_of_assets_eq {s s' : Inventory} (h : s'.assets = s.assets)
    (τ ι : String) : s'.assetsQ τ ι = s.assetsQ τ ι := by
  rw [Inventory.assetsQ, Inventory.assetsQ, h]

theorem teamsQ_eq_of_teams_eq {s s' : Inventory} (h : s'.teams = s.teams)
    (ι : String) : s'.teamsQ ι = s.teamsQ ι := by
  rw [Inventory.teamsQ, Inventory.teamsQ, h]

theorem setAWSAccount_post (s : Inventory) (asset : AssetResp)
    (aws : String) (now : Time) (s1 : Inventory) (hwf : s.WF)
    (hok : setAWSAccount s asset aws now = .ok s1) :
    s1.WF ∧ s1.teams = s.teams ∧ s1.owns = s.owns ∧
    (∀ τ ι A0, NormAsset s τ ι now A0 → NormAsset s1 τ ι now A0) ∧
    (∀ c d, NormParent s c d now → NormParent s1 c d now) ∧
    ∃ normid A', normalizeAWSAccountID aws = .ok normid ∧
      NormAsset s1 "AWSAccount" normid now A' ∧
      NormParent s1 asset.id A'.id now := by
  rcases hn : normalizeAWSAccountID aws with e | normid
  · simp only [setAWSAccount, hn] at hok
    exact Except.noConfusion hok
  · simp only [setAWSAccount, hn] at hok
    rcases hup : upsertAsset s
        { AssetPayload.zero with identifier := normid, assetType := "AWSAccount" }
        now with e | p
    · rw [hup] at hok
      exact Except.noConfusion hok
    · obtain ⟨A', s2⟩ := p
      rw [hup] at hok
      injection hok with h
      subst h
      obtain ⟨hwf2, hNA', hframeQ, hteams2, howns2, hpar2, hid⟩ :=
        upsertAsset_post s _ now A' s2 hwf hup
      refine ⟨WF_of_frame rfl rfl rfl hwf2, hteams2, howns2, ?_, ?_, ?_⟩
      · intro τ ι A0 hN0
        show NormAsset s2 τ ι now A0
        by_cases hkey : τ = "AWSAccount" ∧ ι = normid
        · obtain ⟨rfl, rfl⟩ := hkey
          obtain ⟨hAe, hse⟩ := hid A0 hN0
          exact hse.symm ▸ hN0
        · exact ⟨(hframeQ τ ι hkey).trans hN0.1, hN0.2.1, hN0.2.2⟩
      · intro c d hNP
        have hNP2 : NormParent s2 c d now := by
          unfold NormParent at hNP ⊢
          rw [hpar2]
          exact hNP
        exact upsertParent_presNP s2 asset.id A'.id c d now hNP2
      · exact ⟨normid, A', rfl, hNA', upsertParent_norm s2 asset.id A'.id now⟩

theorem setAWSAccount_id (s : Inventory) (asset : AssetResp) (aws : String)
    (now : Time) (normid : String) (A' : AssetResp) (hwf : s.WF)
    (hn : normalizeAWSAccountID aws = .ok normid)
    (hNA : NormAsset s "AWSAccount" normid now A')
    (hNP : NormParent s asset.id A'.id now) :
    setAWSAccount s asset aws now = .ok s := by
  obtain ⟨hids, hbound, htids, htbound⟩ := hwf
  have hup : upsertAsset s
      { AssetPayload.zero with identifier := normid, assetType := "AWSAccount" }
      now = .ok (A', s) :=
    upsertAsset_id s _ now A' hids hNA
  simp only [setAWSAccount, hn, hup]
  rw [upsertParent_id s asset.id A'.id now hNP]

theorem processAnnots_post (awsKey : String) (asset : AssetResp) (now : Time)
    (annots : List Annot) :
    ∀ s s' : Inventory, s.WF →
      processAnnots awsKey asset now annots s = .ok s' →
      s'.WF ∧ s'.teams = s.teams ∧ s'.owns = s.owns ∧
      (∀ τ ι A0, NormAsset s τ ι now A0 → NormAsset s' τ ι now A0) ∧
      (∀ c d, NormParent s c d now → NormParent s' c d now) ∧
      processAnnots awsKey asset now annots s' = .ok s' := by
  induction annots with
  | nil =>
    intro s s' hwf hok
    simp only [processAnnots] at hok
    injection hok with h
    subst h
    exact ⟨hwf, rfl, rfl, fun τ ι A0 h => h, fun c d h => h, rfl⟩
  | cons a rest ih =>
    intro s s' hwf hok
    simp only [processAnnots] at hok
    by_cases hk : a.key = awsKey
    · rw [if_pos hk] at hok
      rcases hsa : setAWSAccount s asset a.value now with e | s1
      · rw [hsa] at hok
        exact Except.noConfusion hok
      · rw [hsa] at hok
        obtain ⟨hwf1, hteams1, howns1, hNA1, hNP1, hex1⟩ :=
          setAWSAccount_post s asset a.value now s1 hwf hsa
        obtain ⟨normid, A', hn, hA', hP'⟩ := hex1
        obtain ⟨hwf', hteams', howns', hNA', hNP', hidem⟩ := ih s1 s' hwf1 hok
        refine ⟨hwf', hteams'.trans hteams1, howns'.trans howns1,
          fun τ ι A0 h => hNA' τ ι A0 (hNA1 τ ι A0 h),
          fun c d h => hNP' c d (hNP1 c d h), ?_⟩
        have hsaid : setAWSAccount s' asset a.value now = .ok s' :=
          setAWSAccount_id s' asset a.value now normid A' hwf' hn
            (hNA' _ _ _ hA') (hNP' _ _ hP')
        simp only [processAnnots, if_pos hk, hsaid]
        exact hidem
    · rw [if_neg hk] at hok
      obtain ⟨hwf', hteams', howns', hNA', hNP', hidem⟩ := ih s s' hwf hok
      refine ⟨hwf', hteams', howns', hNA', hNP', ?_⟩
      simp only [processAnnots, if_neg hk]
      exact hidem

/-- C9: for every upsert event, applying the refresh operation twice in a
row (at the same instant, with the same payload) yields the same graph
state as applying it once — the second application returns the state of
the first unchanged, so no duplicate assets, teams, or Owns/ParentOf edges
are created; and an existing Owns edge for the resolved (asset, team) pair
is upserted with its original start time and an absent end time rather
than a new edge being appended. -/
theorem refreshAsset_idempotent (s : Inventory) (p : AssetPayload)
    (now : Time) (awsKey : String) (s' : Inventory) (hwf : s.WF)
    (hok : refreshAsset s p now awsKey = .ok s') :
    refreshAsset s' p now awsKey = .ok s' ∧
    ∀ (A : AssetResp) (T : TeamResp),
      KeyedNoDup ownsKey s.owns →
      (∃ o ∈ s.owns, o.assetID = A.id ∧ o.teamID = T.id) →
      (setOwner s A T now).owns = s.owns.map fun o =>
        if o.assetID = A.id ∧ o.teamID = T.id then { o with endTime := none }
        else o := by
  refine ⟨?_, fun A T hnd hex => setOwner_reuse s A T now hnd hex⟩
  rcases hup : upsertAsset s p now with e | q
  · simp only [refreshAsset, hup] at hok
    exact Except.noConfusion hok
  obtain ⟨A, s1⟩ := q
  simp only [refreshAsset, hup] at hok
  rcases hut : upsertTeam s1 p with e | q2
  · rw [hut] at hok
    exact Except.noConfusion hok
  obtain ⟨T, s2⟩ := q2
  rw [hut] at hok
  obtain ⟨hwf1, hNA1, hfQ1, hteams1, howns1, hpar1, _⟩ :=
    upsertAsset_post s p now A s1 hwf hup
  obtain ⟨hwf2, hNT2, hassets2, howns2, hpar2⟩ :=
    upsertTeam_post s1 p T s2 hwf1 hut
  obtain ⟨hsoA, hsoT, hsoP, hsoN⟩ := setOwner_fields s2 A T now
  have hwf3 : (setOwner s2 A T now).WF := WF_of_frame hsoA hsoT hsoN hwf2
  have hNA3 : NormAsset (setOwner s2 A T now) p.assetType p.identifier now A :=
    ⟨((assetsQ_eq_of_assets_eq hsoA _ _).trans
        (assetsQ_eq_of_assets_eq hassets2 _ _)).trans hNA1.1,
      hNA1.2.1, hNA1.2.2⟩
  have hNT3 : NormTeam (setOwner s2 A T now) p.team.id p.team.name T :=
    ⟨(teamsQ_eq_of_teams_eq hsoT _).trans hNT2.1, hNT2.2⟩
  have hNO3 : NormOwns (setOwner s2 A T now) A.id T.id := setOwner_norm s2 A T now
  obtain ⟨hwf', hteams', howns', hNA', hNP', hidem⟩ :=
    processAnnots_post awsKey A now p.annotations (setOwner s2 A T now) s' hwf3 hok
  obtain ⟨hids', hbound', htids', htbound'⟩ := hwf'
  have hup' : upsertAsset s' p now = .ok (A, s') :=
    upsertAsset_id s' p now A hids' (hNA' _ _ _ hNA3)
  have hNT' : NormTeam s' p.team.id p.team.name T :=
    ⟨(teamsQ_eq_of_teams_eq (hteams'.trans hsoT) _).trans hNT2.1, hNT2.2⟩
  have hut' : upsertTeam s' p = .ok (T, s') :=
    upsertTeam_id s' p T htids' hNT'
  have hNO' : NormOwns s' A.id T.id := by
    unfold NormOwns at hNO3 ⊢
    rw [howns']
    exact hNO3
  have hso' : setOwner s' A T now = s' := setOwner_id s' A T now hNO'
  simp only [refreshAsset, hup', hut', hso']
  exact hidem

/-- Witness for C9: refreshing ("Hostname", "h") for team "team0" at
instant 7 on the empty store reaches `c9Once`, and a second refresh
returns `c9Once` unchanged. -/
theorem refreshAsset_idempotentW :
    refreshAsset c9Once c9Payload 7 "aws" = .ok c9Once ∧
    ∀ (A : AssetResp) (T : TeamResp),
      KeyedNoDup ownsKey c9Start.owns →
      (∃ o ∈ c9Start.owns, o.assetID = A.id ∧ o.teamID = T.id) →
      (setOwner c9Start A T 7).owns = c9Start.owns.map fun o =>
        if o.assetID = A.id ∧ o.teamID = T.id then { o with endTime := none }
        else o :=
  refreshAsset_idempotent c9Start c9Payload 7 "aws" c9Once (by decide) (by rfl)

end GraphVulcanAssets
